import Mathlib

/-!
Verification of the concurrent map in `src/sync/map/map.go` (a transcription
of Go's `sync.Map`), under a sequential (single-caller) shallow embedding.

Entries are heap cells identified by a natural-number id, so that sharing of
one entry object between the read snapshot and the dirty mapping is sharing
of the id.  The atomic pointer `entry.p` is modelled by the three-state cell
`EState`: `p == nil` is `.empty`, `p == expunged` is `.expunged`, and a
pointer to an interface value `v` is `.val v`.  Go map assignment to a nil
map panics, so the two operations that can write to the dirty map when it is
nil (`Store`, `LoadOrStore`) return `Option`; `none` is that panic.
-/

/-- A Go `interface{}` value.  `vnil` is the nil interface, which is a
perfectly storable value, distinct from absence of an entry. -/
inductive GoVal where
  | vnil
  | vint (n : Int)
  | vstr (s : String)
deriving DecidableEq, Repr

/-- The state of one `entry.p` atomic cell. -/
inductive EState where
  | empty
  | expunged
  | val (v : GoVal)
deriving DecidableEq, Repr

/-- Does the cell hold a live value? -/
def EState.isVal : EState → Bool
  | .val _ => true
  | _ => false

section Assoc

variable {κ α : Type} [DecidableEq κ]

/-- Association-list lookup (first match), modelling Go map indexing. -/
def alookup (l : List (κ × α)) (k : κ) : Option α :=
  match l with
  | [] => none
  | p :: t => if p.1 = k then some p.2 else alookup t k

/-- Association-list insert/replace, modelling Go map assignment. -/
def ainsert (l : List (κ × α)) (k : κ) (v : α) : List (κ × α) :=
  match l with
  | [] => [(k, v)]
  | p :: t => if p.1 = k then (k, v) :: t else p :: ainsert t k v

/-- Association-list removal of a key, modelling Go `delete`. -/
def aerase (l : List (κ × α)) (k : κ) : List (κ × α) :=
  match l with
  | [] => []
  | p :: t => if p.1 = k then aerase t k else p :: aerase t k

end Assoc

/-- The entry heap: entry id to cell state. -/
def Heap : Type := List (Nat × EState)

instance : DecidableEq Heap := by unfold Heap; infer_instance

/-- Read an entry cell (ids are only read while allocated). -/
def heapGet (h : Heap) (e : Nat) : EState :=
  (alookup h e).getD .empty

/-- Write an entry cell. -/
def heapSet (h : Heap) (e : Nat) (st : EState) : Heap :=
  ainsert h e st

/-- The whole `Map` struct: entry heap plus allocation counter, the published
`readOnly` snapshot (`read.m` and `read.amended`), the dirty map (`none` is
Go's nil map), and the miss counter. -/
structure MapState where
  heap : Heap
  nextId : Nat
  readM : List (GoVal × Nat)
  amended : Bool
  dirty : Option (List (GoVal × Nat))
  misses : Nat
deriving DecidableEq

/-- The dirty map as read by Go code (reading a nil map gives no keys). -/
def dirtyList (s : MapState) : List (GoVal × Nat) :=
  s.dirty.getD []

/-- The zero-value `Map`: empty unamended snapshot, nil dirty map. -/
def Map.init : MapState :=
  { heap := [], nextId := 0, readM := [], amended := false,
    dirty := none, misses := 0 }

/-- `entry.load`: nil or expunged pointer is "not found". -/
def entry.load (h : Heap) (e : Nat) : GoVal × Bool :=
  match heapGet h e with
  | .val v => (v, true)
  | _ => (GoVal.vnil, false)

/-- `entry.tryStore`: CAS loop that fails only on an expunged entry
(sequentially the CAS succeeds first try). -/
def entry.tryStore (h : Heap) (e : Nat) (i : GoVal) : Bool × Heap :=
  match heapGet h e with
  | .expunged => (false, h)
  | _ => (true, heapSet h e (.val i))

/-- `entry.unexpungeLocked`: CAS expunged to nil. -/
def entry.unexpungeLocked (h : Heap) (e : Nat) : Bool × Heap :=
  match heapGet h e with
  | .expunged => (true, heapSet h e .empty)
  | _ => (false, h)

/-- `entry.storeLocked`: unconditional store. -/
def entry.storeLocked (h : Heap) (e : Nat) (i : GoVal) : Heap :=
  heapSet h e (.val i)

/-- `entry.tryLoadOrStore`: result is (actual, loaded, ok) plus the heap;
ok is false exactly on an expunged entry, which is left unchanged. -/
def entry.tryLoadOrStore (h : Heap) (e : Nat) (i : GoVal) :
    (GoVal × Bool × Bool) × Heap :=
  match heapGet h e with
  | .expunged => ((GoVal.vnil, false, false), h)
  | .val v => ((v, true, true), h)
  | .empty => ((i, false, true), heapSet h e (.val i))

/-- `entry.delete`: CAS loop clearing a live value to nil; reports whether a
value was present. -/
def entry.delete (h : Heap) (e : Nat) : Bool × Heap :=
  match heapGet h e with
  | .val _ => (true, heapSet h e .empty)
  | _ => (false, h)

/-- `entry.tryExpungeLocked`: expunge a nil entry; an already-expunged entry
also reports true; a live value reports false. -/
def entry.tryExpungeLocked (h : Heap) (e : Nat) : Bool × Heap :=
  match heapGet h e with
  | .empty => (true, heapSet h e .expunged)
  | .expunged => (true, h)
  | .val _ => (false, h)

/-- `newEntry(i)`: allocate a fresh entry holding `i`. -/
def newEntry (h : Heap) (next : Nat) (i : GoVal) : Nat × Heap :=
  (next, heapSet h next (.val i))

/-- `Map.missLocked`: count a miss; once misses reach the dirty size,
promote dirty to the read snapshot (`readOnly` zero value has
`amended = false`), drop dirty, reset misses. -/
def Map.missLocked (s : MapState) : MapState :=
  let m := s.misses + 1
  if m < (dirtyList s).length then
    { s with misses := m }
  else
    { s with readM := dirtyList s, amended := false,
             dirty := none, misses := 0 }

/-- The loop body of `Map.dirtyLocked`: walk the snapshot, try to expunge
each entry, and keep (by reference) exactly the entries not expunged. -/
def dirtyScan (h : Heap) : List (GoVal × Nat) → Heap × List (GoVal × Nat)
  | [] => (h, [])
  | p :: t =>
    let r := entry.tryExpungeLocked h p.2
    let rest := dirtyScan r.2 t
    if r.1 then rest else (rest.1, p :: rest.2)

/-- `Map.dirtyLocked`: materialize the dirty map from the snapshot when it
is nil; no-op otherwise. -/
def Map.dirtyLocked (s : MapState) : MapState :=
  match s.dirty with
  | some _ => s
  | none =>
    let r := dirtyScan s.heap s.readM
    { s with heap := r.1, dirty := some r.2 }

/-- `Map.Load`: read path; the slow path consults dirty under the lock and
counts a miss.  The returned value is loaded from the entry (the heap is not
changed by `missLocked`, so loading before or after it is the same). -/
def Map.Load (s : MapState) (k : GoVal) : (GoVal × Bool) × MapState :=
  match alookup s.readM k with
  | some e => (entry.load s.heap e, s)
  | none =>
    if s.amended then
      match alookup (dirtyList s) k with
      | some e => (entry.load s.heap e, Map.missLocked s)
      | none => ((GoVal.vnil, false), Map.missLocked s)
    else ((GoVal.vnil, false), s)

/-- The locked section of `Map.Store`.  Assigning to a nil dirty map is a
runtime panic, modelled as `none`. -/
def Map.storeSlow (s : MapState) (k i : GoVal) : Option MapState :=
  match alookup s.readM k with
  | some e =>
    let u := entry.unexpungeLocked s.heap e
    if u.1 then
      match s.dirty with
      | none => none
      | some d =>
        some { s with heap := entry.storeLocked u.2 e i,
                      dirty := some (ainsert d k e) }
    else
      some { s with heap := entry.storeLocked u.2 e i }
  | none =>
    match alookup (dirtyList s) k with
    | some e => some { s with heap := entry.storeLocked s.heap e i }
    | none =>
      let s1 := if s.amended then s
                else { Map.dirtyLocked s with amended := true }
      match s1.dirty with
      | none => none
      | some d =>
        let a := newEntry s1.heap s1.nextId i
        some { s1 with heap := a.2, dirty := some (ainsert d k a.1),
                       nextId := s1.nextId + 1 }

/-- `Map.Store`: lock-free try on a snapshot entry, else the locked path. -/
def Map.Store (s : MapState) (k i : GoVal) : Option MapState :=
  match alookup s.readM k with
  | some e =>
    let t := entry.tryStore s.heap e i
    if t.1 then some { s with heap := t.2 } else Map.storeSlow s k i
  | none => Map.storeSlow s k i

/-- The locked section of `Map.LoadOrStore`. -/
def Map.loadOrStoreSlow (s : MapState) (k i : GoVal) :
    Option ((GoVal × Bool) × MapState) :=
  match alookup s.readM k with
  | some e =>
    let u := entry.unexpungeLocked s.heap e
    if u.1 then
      match s.dirty with
      | none => none
      | some d =>
        let r := entry.tryLoadOrStore u.2 e i
        some ((r.1.1, r.1.2.1),
              { s with heap := r.2, dirty := some (ainsert d k e) })
    else
      let r := entry.tryLoadOrStore u.2 e i
      some ((r.1.1, r.1.2.1), { s with heap := r.2 })
  | none =>
    match alookup (dirtyList s) k with
    | some e =>
      let r := entry.tryLoadOrStore s.heap e i
      some ((r.1.1, r.1.2.1), Map.missLocked { s with heap := r.2 })
    | none =>
      let s1 := if s.amended then s
                else { Map.dirtyLocked s with amended := true }
      match s1.dirty with
      | none => none
      | some d =>
        let a := newEntry s1.heap s1.nextId i
        some ((i, false),
              { s1 with heap := a.2, dirty := some (ainsert d k a.1),
                        nextId := s1.nextId + 1 })

/-- `Map.LoadOrStore`: lock-free `tryLoadOrStore` on a snapshot entry when
it is not expunged, else the locked path. -/
def Map.LoadOrStore (s : MapState) (k i : GoVal) :
    Option ((GoVal × Bool) × MapState) :=
  match alookup s.readM k with
  | some e =>
    let r := entry.tryLoadOrStore s.heap e i
    if r.1.2.2 then some ((r.1.1, r.1.2.1), { s with heap := r.2 })
    else Map.loadOrStoreSlow s k i
  | none => Map.loadOrStoreSlow s k i

/-- `Map.Delete`: clear a snapshot entry lock-free, else remove the key
from dirty under the lock (deleting from a nil map is a no-op). -/
def Map.Delete (s : MapState) (k : GoVal) : MapState :=
  match alookup s.readM k with
  | some e => { s with heap := (entry.delete s.heap e).2 }
  | none =>
    if s.amended then
      { s with dirty := s.dirty.map (fun d => aerase d k) }
    else s

/-- The iteration loop of `Map.Range`, returning the list of (key, value)
pairs passed to the visitor, in order; a pair on which the visitor returns
false is the last one visited. -/
def rangeIter (h : Heap) (f : GoVal → GoVal → Bool) :
    List (GoVal × Nat) → List (GoVal × GoVal)
  | [] => []
  | p :: t =>
    match heapGet h p.2 with
    | .val v => if f p.1 v then (p.1, v) :: rangeIter h f t else [(p.1, v)]
    | _ => rangeIter h f t

/-- `Map.Range`: when the snapshot is amended, promote dirty into the
snapshot unconditionally under the lock; then iterate the snapshot. -/
def Map.Range (s : MapState) (f : GoVal → GoVal → Bool) :
    MapState × List (GoVal × GoVal) :=
  let s1 := if s.amended then
      { s with readM := dirtyList s, amended := false,
               dirty := none, misses := 0 }
    else s
  (s1, rangeIter s1.heap f s1.readM)

/-! ### Association-list lemmas -/

section AssocLemmas

variable {κ α : Type} [DecidableEq κ]

theorem alookup_ainsert_self (l : List (κ × α)) (k : κ) (v : α) :
    alookup (ainsert l k v) k = some v := by
  induction l with
  | nil => simp [ainsert, alookup]
  | cons p t ih =>
    by_cases h : p.1 = k
    · simp [ainsert, h, alookup]
    · simp [ainsert, h, alookup, ih]

theorem alookup_ainsert_ne (l : List (κ × α)) (k k1 : κ) (v : α)
    (h : k1 ≠ k) : alookup (ainsert l k v) k1 = alookup l k1 := by
  have hk : ¬(k = k1) := fun hh => h hh.symm
  induction l with
  | nil => simp [ainsert, alookup, hk]
  | cons p t ih =>
    by_cases hp : p.1 = k
    · have hp1 : ¬(p.1 = k1) := by rw [hp]; exact hk
      simp [ainsert, hp, alookup, hk, hp1]
    · simp [ainsert, hp, alookup, ih]

theorem alookup_aerase_self (l : List (κ × α)) (k : κ) :
    alookup (aerase l k) k = none := by
  induction l with
  | nil => simp [aerase, alookup]
  | cons p t ih =>
    by_cases h : p.1 = k
    · simp [aerase, h, ih]
    · simp [aerase, h, alookup, ih]

theorem alookup_aerase_ne (l : List (κ × α)) (k k1 : κ)
    (h : k1 ≠ k) : alookup (aerase l k) k1 = alookup l k1 := by
  induction l with
  | nil => simp [aerase]
  | cons p t ih =>
    by_cases hp : p.1 = k
    · have hk : ¬(k = k1) := fun hh => h hh.symm
      have hp1 : ¬(p.1 = k1) := by rw [hp]; exact hk
      simp [aerase, hp, alookup, hp1, hk, ih]
    · simp [aerase, hp, alookup, ih]

theorem aerase_idem (l : List (κ × α)) (k : κ) :
    aerase (aerase l k) k = aerase l k := by
  induction l with
  | nil => simp [aerase]
  | cons p t ih =>
    by_cases h : p.1 = k
    · simp [aerase, h, ih]
    · simp [aerase, h, ih]

theorem alookup_eq_none (l : List (κ × α)) (k : κ) :
    alookup l k = none ↔ k ∉ l.map Prod.fst := by
  induction l with
  | nil => simp [alookup]
  | cons p t ih =>
    by_cases h : p.1 = k
    · simp [alookup, h]
    · have h1 : alookup (p :: t) k = alookup t k := by simp [alookup, h]
      rw [h1, ih, List.map_cons]
      constructor
      · intro hn hc
        rcases List.mem_cons.mp hc with hc | hc
        · exact h hc.symm
        · exact hn hc
      · intro hn hc
        exact hn (List.mem_cons_of_mem _ hc)

theorem alookup_mem {l : List (κ × α)} {k : κ} {v : α}
    (h : alookup l k = some v) : (k, v) ∈ l := by
  induction l with
  | nil => simp [alookup] at h
  | cons p t ih =>
    by_cases hp : p.1 = k
    · have hv : p.2 = v := by simpa [alookup, hp] using h
      have hpk : p = (k, v) := by
        cases p
        simp_all
      rw [← hpk]
      exact List.mem_cons_self p t
    · simp [alookup, hp] at h
      exact List.mem_cons_of_mem _ (ih h)

theorem mem_alookup {l : List (κ × α)} {k : κ} {v : α}
    (hn : (l.map Prod.fst).Nodup) (h : (k, v) ∈ l) :
    alookup l k = some v := by
  induction l with
  | nil => simp at h
  | cons p t ih =>
    rw [List.map_cons, List.nodup_cons] at hn
    rcases List.mem_cons.mp h with h1 | h1
    · simp [alookup, ← h1]
    · have hk : ¬(p.1 = k) := by
        intro hh
        apply hn.1
        rw [hh]
        exact List.mem_map_of_mem Prod.fst h1
      simp [alookup, hk]
      exact ih hn.2 h1

theorem ainsert_of_lookup_none {l : List (κ × α)} {k : κ} (v : α)
    (h : alookup l k = none) : ainsert l k v = l ++ [(k, v)] := by
  induction l with
  | nil => simp [ainsert]
  | cons p t ih =>
    by_cases hp : p.1 = k
    · simp [alookup, hp] at h
    · simp [alookup, hp] at h
      simp [ainsert, hp, ih h]

theorem keys_ainsert_mem {l : List (κ × α)} {k : κ} (v : α)
    (h : k ∈ l.map Prod.fst) :
    (ainsert l k v).map Prod.fst = l.map Prod.fst := by
  induction l with
  | nil => simp at h
  | cons p t ih =>
    by_cases hp : p.1 = k
    · simp [ainsert, hp]
    · rw [List.map_cons] at h
      have ht : k ∈ t.map Prod.fst := by
        rcases List.mem_cons.mp h with h1 | h1
        · exact absurd h1.symm hp
        · exact h1
      simp [ainsert, hp, ih ht]

theorem keys_nodup_ainsert {l : List (κ × α)} {k : κ} (v : α)
    (hn : (l.map Prod.fst).Nodup) :
    ((ainsert l k v).map Prod.fst).Nodup := by
  by_cases h : k ∈ l.map Prod.fst
  · rw [keys_ainsert_mem v h]; exact hn
  · rw [ainsert_of_lookup_none v ((alookup_eq_none l k).mpr h), List.map_append,
      List.nodup_append]
    refine ⟨hn, List.nodup_singleton _, ?_⟩
    intro a ha hb
    simp at hb
    subst hb
    exact h ha

theorem mem_ainsert {l : List (κ × α)} {k : κ} {v : α} {p : κ × α}
    (h : p ∈ ainsert l k v) : p = (k, v) ∨ p ∈ l := by
  induction l with
  | nil =>
    simp [ainsert] at h
    left; exact h
  | cons q t ih =>
    by_cases hq : q.1 = k
    · simp [ainsert, hq] at h
      rcases h with h | h
      · left; exact h
      · right; exact List.mem_cons_of_mem _ h
    · simp [ainsert, hq] at h
      rcases h with h | h
      · right; exact List.mem_cons.mpr (Or.inl h)
      · rcases ih h with h1 | h1
        · left; exact h1
        · right; exact List.mem_cons_of_mem _ h1

theorem aerase_sublist (l : List (κ × α)) (k : κ) : (aerase l k).Sublist l := by
  induction l with
  | nil => simp [aerase]
  | cons p t ih =>
    by_cases h : p.1 = k
    · rw [show aerase (p :: t) k = aerase t k from by simp [aerase, h]]
      exact List.Sublist.cons _ ih
    · rw [show aerase (p :: t) k = p :: aerase t k from by simp [aerase, h]]
      exact List.Sublist.cons₂ _ ih

theorem nodup_map_eq_of_mem {β : Type} {l : List α} {f : α → β} {a b : α}
    (hn : (l.map f).Nodup) (ha : a ∈ l) (hb : b ∈ l) (hf : f a = f b) :
    a = b := by
  induction l with
  | nil => simp at ha
  | cons p t ih =>
    rw [List.map_cons, List.nodup_cons] at hn
    rcases List.mem_cons.mp ha with h1 | h1 <;>
      rcases List.mem_cons.mp hb with h2 | h2
    · rw [h1, h2]
    · subst h1
      have hm : f a ∈ List.map f t := by
        rw [hf]
        exact List.mem_map_of_mem f h2
      exact absurd hm hn.1
    · subst h2
      have hm : f b ∈ List.map f t := by
        rw [← hf]
        exact List.mem_map_of_mem f h1
      exact absurd hm hn.1
    · exact ih hn.2 h1 h2

end AssocLemmas

/-! ### Heap lemmas -/

theorem heapGet_set_self (h : Heap) (e : Nat) (st : EState) :
    heapGet (heapSet h e st) e = st := by
  simp [heapGet, heapSet, alookup_ainsert_self]

theorem heapGet_set_ne (h : Heap) (e e1 : Nat) (st : EState) (hne : e1 ≠ e) :
    heapGet (heapSet h e st) e1 = heapGet h e1 := by
  simp [heapGet, heapSet, alookup_ainsert_ne _ _ _ _ hne]

/-! ### dirtyScan characterization -/

theorem isVal_set_invariant (h : Heap) (e0 : Nat) (st : EState)
    (hv : st.isVal = (heapGet h e0).isVal) (e : Nat) :
    (heapGet (heapSet h e0 st) e).isVal = (heapGet h e).isVal := by
  by_cases he : e = e0
  · subst he; rw [heapGet_set_self, hv]
  · rw [heapGet_set_ne _ _ _ _ he]

/-- The dirty map built by the scan keeps exactly the entries that held a
live value when the scan started, each by reference (same id, same order). -/
theorem dirtyScan_snd (h : Heap) (l : List (GoVal × Nat)) :
    (dirtyScan h l).2 = l.filter (fun p => (heapGet h p.2).isVal) := by
  induction l generalizing h with
  | nil => simp [dirtyScan]
  | cons p t ih =>
    cases hc : heapGet h p.2 with
    | empty =>
      have step : (dirtyScan h (p :: t)).2 =
          (dirtyScan (heapSet h p.2 .expunged) t).2 := by
        simp [dirtyScan, entry.tryExpungeLocked, hc]
      rw [step, ih]
      have hcong : ∀ q ∈ t, ((heapGet (heapSet h p.2 .expunged) q.2).isVal)
          = ((heapGet h q.2).isVal) := by
        intro q _
        exact isVal_set_invariant h p.2 .expunged (by simp [hc, EState.isVal]) q.2
      rw [List.filter_congr hcong]
      simp [List.filter_cons, hc, EState.isVal]
    | expunged =>
      have step : (dirtyScan h (p :: t)).2 = (dirtyScan h t).2 := by
        simp [dirtyScan, entry.tryExpungeLocked, hc]
      rw [step, ih]
      simp [List.filter_cons, hc, EState.isVal]
    | val v =>
      have step : (dirtyScan h (p :: t)).2 = p :: (dirtyScan h t).2 := by
        simp [dirtyScan, entry.tryExpungeLocked, hc]
      rw [step, ih]
      simp [List.filter_cons, hc, EState.isVal]

theorem ite_mem_cons_ne {e a : Nat} {l : List Nat} (he : ¬e = a)
    (P : Prop) [Decidable P] (x y : EState) :
    (if e ∈ l ∧ P then x else y) = (if e ∈ a :: l ∧ P then x else y) := by
  have hm : (e ∈ a :: l) ↔ (e ∈ l) := by
    rw [List.mem_cons]
    exact or_iff_right he
  rw [if_congr (and_congr_left' hm) rfl rfl]

/-- The scan's effect on the heap: exactly the scanned entries that were
nil get expunged; every other cell is untouched. -/
theorem dirtyScan_fst (h : Heap) (l : List (GoVal × Nat)) (e : Nat) :
    heapGet (dirtyScan h l).1 e =
      if e ∈ l.map Prod.snd ∧ heapGet h e = .empty then .expunged
      else heapGet h e := by
  induction l generalizing h with
  | nil => simp [dirtyScan]
  | cons p t ih =>
    cases hc : heapGet h p.2 with
    | empty =>
      have step : (dirtyScan h (p :: t)).1 =
          (dirtyScan (heapSet h p.2 .expunged) t).1 := by
        simp [dirtyScan, entry.tryExpungeLocked, hc]
      rw [step, ih]
      by_cases he : e = p.2
      · subst he
        rw [heapGet_set_self]
        simp [hc, List.map_cons]
      · rw [heapGet_set_ne _ _ _ _ he, List.map_cons]
        exact ite_mem_cons_ne he _ _ _
    | expunged =>
      have step : (dirtyScan h (p :: t)).1 = (dirtyScan h t).1 := by
        simp [dirtyScan, entry.tryExpungeLocked, hc]
      rw [step, ih]
      by_cases he : e = p.2
      · subst he
        simp [hc]
      · rw [List.map_cons]
        exact ite_mem_cons_ne he _ _ _
    | val v =>
      have step : (dirtyScan h (p :: t)).1 = (dirtyScan h t).1 := by
        simp [dirtyScan, entry.tryExpungeLocked, hc]
      rw [step, ih]
      by_cases he : e = p.2
      · subst he
        simp [hc]
      · rw [List.map_cons]
        exact ite_mem_cons_ne he _ _ _

/-! ### rangeIter characterization -/

theorem rangeIter_keys_sublist (h : Heap) (f : GoVal → GoVal → Bool)
    (l : List (GoVal × Nat)) :
    ((rangeIter h f l).map Prod.fst).Sublist (l.map Prod.fst) := by
  induction l with
  | nil => simp [rangeIter]
  | cons p t ih =>
    cases hc : heapGet h p.2 with
    | val v =>
      by_cases hf : f p.1 v
      · rw [show rangeIter h f (p :: t) = (p.1, v) :: rangeIter h f t from by
          simp [rangeIter, hc, hf]]
        rw [List.map_cons, List.map_cons]
        exact List.Sublist.cons₂ _ ih
      · rw [show rangeIter h f (p :: t) = [(p.1, v)] from by
          simp [rangeIter, hc, hf]]
        rw [List.map_cons]
        exact List.Sublist.cons₂ _ (List.nil_sublist _)
    | empty =>
      rw [show rangeIter h f (p :: t) = rangeIter h f t from by
        simp [rangeIter, hc]]
      rw [List.map_cons]
      exact List.Sublist.cons _ ih
    | expunged =>
      rw [show rangeIter h f (p :: t) = rangeIter h f t from by
        simp [rangeIter, hc]]
      rw [List.map_cons]
      exact List.Sublist.cons _ ih

theorem rangeIter_mem (h : Heap) (f : GoVal → GoVal → Bool)
    (l : List (GoVal × Nat)) {q : GoVal × GoVal}
    (hq : q ∈ rangeIter h f l) :
    ∃ e, (q.1, e) ∈ l ∧ heapGet h e = .val q.2 := by
  induction l with
  | nil => simp [rangeIter] at hq
  | cons p t ih =>
    cases hc : heapGet h p.2 with
    | val v =>
      by_cases hf : f p.1 v
      · rw [show rangeIter h f (p :: t) = (p.1, v) :: rangeIter h f t from by
          simp [rangeIter, hc, hf]] at hq
        rcases List.mem_cons.mp hq with h1 | h1
        · refine ⟨p.2, ?_, ?_⟩
          · rw [h1]
            exact List.mem_cons.mpr (Or.inl (Prod.mk.eta).symm)
          · rw [h1]
            exact hc
        · rcases ih h1 with ⟨e, he1, he2⟩
          exact ⟨e, List.mem_cons_of_mem _ he1, he2⟩
      · rw [show rangeIter h f (p :: t) = [(p.1, v)] from by
          simp [rangeIter, hc, hf]] at hq
        have h1 : q = (p.1, v) := by simpa using hq
        refine ⟨p.2, ?_, ?_⟩
        · rw [h1]
          exact List.mem_cons.mpr (Or.inl (Prod.mk.eta).symm)
        · rw [h1]
          exact hc
    | empty =>
      rw [show rangeIter h f (p :: t) = rangeIter h f t from by
        simp [rangeIter, hc]] at hq
      rcases ih hq with ⟨e, he1, he2⟩
      exact ⟨e, List.mem_cons_of_mem _ he1, he2⟩
    | expunged =>
      rw [show rangeIter h f (p :: t) = rangeIter h f t from by
        simp [rangeIter, hc]] at hq
      rcases ih hq with ⟨e, he1, he2⟩
      exact ⟨e, List.mem_cons_of_mem _ he1, he2⟩

theorem rangeIter_stop (h : Heap) (f : GoVal → GoVal → Bool)
    (l : List (GoVal × Nat)) :
    ∀ l1 (q : GoVal × GoVal) l2, rangeIter h f l = l1 ++ q :: l2 →
      f q.1 q.2 = false → l2 = [] := by
  induction l with
  | nil =>
    intro l1 q l2 heq _
    rw [rangeIter] at heq
    exact absurd heq.symm (List.append_ne_nil_of_right_ne_nil l1 (by simp))
  | cons p t ih =>
    intro l1 q l2 heq hfq
    cases hc : heapGet h p.2 with
    | val v =>
      by_cases hf : f p.1 v
      · rw [show rangeIter h f (p :: t) = (p.1, v) :: rangeIter h f t from by
          simp [rangeIter, hc, hf]] at heq
        cases l1 with
        | nil =>
          simp at heq
          rw [← heq.1] at hfq
          simp [hf] at hfq
        | cons a l1t =>
          simp at heq
          exact ih l1t q l2 heq.2 hfq
      · rw [show rangeIter h f (p :: t) = [(p.1, v)] from by
          simp [rangeIter, hc, hf]] at heq
        cases l1 with
        | nil =>
          simp at heq
          exact heq.2
        | cons a l1t =>
          simp at heq
    | empty =>
      rw [show rangeIter h f (p :: t) = rangeIter h f t from by
        simp [rangeIter, hc]] at heq
      exact ih l1 q l2 heq hfq
    | expunged =>
      rw [show rangeIter h f (p :: t) = rangeIter h f t from by
        simp [rangeIter, hc]] at heq
      exact ih l1 q l2 heq hfq

/-! ### The state invariant -/

/-- Well-formedness of a map state, as maintained by every operation:
the amended flag tracks exactly whether dirty is materialized; dirty never
holds an expunged entry; every non-expunged snapshot entry is shared (same
id, same key) with dirty when dirty exists; expunged entries exist only
while dirty exists and are absent from it; ids are allocated below
`nextId`; keys and entry ids of both maps are duplicate-free. -/
structure WF (s : MapState) : Prop where
  amended_iff : s.amended = true ↔ s.dirty ≠ none
  dirty_live : ∀ p ∈ dirtyList s, heapGet s.heap p.2 ≠ .expunged
  read_sub_dirty : s.dirty ≠ none → ∀ p ∈ s.readM,
    heapGet s.heap p.2 ≠ .expunged → alookup (dirtyList s) p.1 = some p.2
  no_exp_without_dirty : s.dirty = none → ∀ p ∈ s.readM,
    heapGet s.heap p.2 ≠ .expunged
  read_ids_lt : ∀ p ∈ s.readM, p.2 < s.nextId
  dirty_ids_lt : ∀ p ∈ dirtyList s, p.2 < s.nextId
  read_keys_nodup : (s.readM.map Prod.fst).Nodup
  dirty_keys_nodup : ((dirtyList s).map Prod.fst).Nodup
  read_ids_nodup : (s.readM.map Prod.snd).Nodup
  dirty_ids_nodup : ((dirtyList s).map Prod.snd).Nodup
  exp_not_in_dirty : ∀ p ∈ s.readM, heapGet s.heap p.2 = .expunged →
    alookup (dirtyList s) p.1 = none

theorem dirtyList_eq {s : MapState} {d : List (GoVal × Nat)}
    (h : s.dirty = some d) : dirtyList s = d := by
  simp [dirtyList, h]

theorem dirty_ne_none_of_lookup {s : MapState} {k : GoVal} {e : Nat}
    (h : alookup (dirtyList s) k = some e) : s.dirty ≠ none := by
  intro hn
  rw [dirtyList, hn] at h
  simp [alookup] at h

theorem mem_keys_of_lookup {κ α : Type} [DecidableEq κ]
    {l : List (κ × α)} {k : κ} {v : α} (h : alookup l k = some v) :
    k ∈ l.map Prod.fst := by
  by_contra hc
  rw [← alookup_eq_none l k] at hc
  rw [h] at hc
  simp at hc

/-- The promotion step shared by `missLocked` and `Range`: install dirty as
the whole snapshot, unamended, and forget dirty. -/
theorem wf_promote {s : MapState} (w : WF s) :
    WF { s with readM := dirtyList s, amended := false,
                dirty := none, misses := 0 } := by
  constructor
  · simp
  · simp [dirtyList]
  · simp
  · intro _ p hp
    exact w.dirty_live p hp
  · intro p hp
    exact w.dirty_ids_lt p hp
  · simp [dirtyList]
  · exact w.dirty_keys_nodup
  · simp [dirtyList]
  · exact w.dirty_ids_nodup
  · simp [dirtyList]
  · intro p hp hexp
    exact absurd hexp (w.dirty_live p hp)

theorem wf_missLocked {s : MapState} (w : WF s) : WF (Map.missLocked s) := by
  rw [Map.missLocked]
  by_cases h : s.misses + 1 < (dirtyList s).length
  · simp only [h, if_true]
    constructor <;>
      first
        | exact w.amended_iff
        | exact w.dirty_live
        | exact w.read_sub_dirty
        | exact w.no_exp_without_dirty
        | exact w.read_ids_lt
        | exact w.dirty_ids_lt
        | exact w.read_keys_nodup
        | exact w.dirty_keys_nodup
        | exact w.read_ids_nodup
        | exact w.dirty_ids_nodup
        | exact w.exp_not_in_dirty
  · simp only [h, if_false]
    exact wf_promote w

/-- Writing a live value into an entry preserves the invariant, provided no
snapshot key holds that id while it is expunged (un-expunging is the separate
locked path). -/
theorem wf_set_val {s : MapState} (w : WF s) (e : Nat) (v : GoVal)
    (hside : ∀ p ∈ s.readM, p.2 = e → heapGet s.heap p.2 ≠ .expunged) :
    WF { s with heap := heapSet s.heap e (.val v) } := by
  have hget : ∀ x : Nat, heapGet (heapSet s.heap e (.val v)) x =
      if x = e then .val v else heapGet s.heap x := by
    intro x
    by_cases hx : x = e
    · subst hx
      simp [heapGet_set_self]
    · simp [hx, heapGet_set_ne _ _ _ _ hx]
  constructor
  · exact w.amended_iff
  · intro p hp
    show heapGet (heapSet s.heap e (.val v)) p.2 ≠ .expunged
    rw [hget]
    by_cases hx : p.2 = e
    · simp [hx]
    · simp only [hx, if_false]
      exact w.dirty_live p hp
  · intro hd p hp hexp
    have hd2 : s.dirty ≠ none := hd
    have hp2 : p ∈ s.readM := hp
    have hexp2 : (if p.2 = e then EState.val v else heapGet s.heap p.2) ≠
        .expunged := by
      have hh : heapGet (heapSet s.heap e (.val v)) p.2 ≠ .expunged := hexp
      rwa [hget] at hh
    show alookup (dirtyList s) p.1 = some p.2
    by_cases hx : p.2 = e
    · exact w.read_sub_dirty hd2 p hp2 (hside p hp2 hx)
    · simp only [hx, if_false] at hexp2
      exact w.read_sub_dirty hd2 p hp2 hexp2
  · intro hd p hp
    have hd2 : s.dirty = none := hd
    have hp2 : p ∈ s.readM := hp
    show heapGet (heapSet s.heap e (.val v)) p.2 ≠ .expunged
    rw [hget]
    by_cases hx : p.2 = e
    · simp [hx]
    · simp only [hx, if_false]
      exact w.no_exp_without_dirty hd2 p hp2
  · exact w.read_ids_lt
  · exact w.dirty_ids_lt
  · exact w.read_keys_nodup
  · exact w.dirty_keys_nodup
  · exact w.read_ids_nodup
  · exact w.dirty_ids_nodup
  · intro p hp hexp
    have hp2 : p ∈ s.readM := hp
    have hexp2 : (if p.2 = e then EState.val v else heapGet s.heap p.2) =
        .expunged := by
      have hh : heapGet (heapSet s.heap e (.val v)) p.2 = .expunged := hexp
      rwa [hget] at hh
    by_cases hx : p.2 = e
    · rw [if_pos hx] at hexp2
      simp at hexp2
    · rw [if_neg hx] at hexp2
      exact w.exp_not_in_dirty p hp2 hexp2

/-- A key found only in dirty has an entry id used by no snapshot key. -/
theorem wf_dirty_only_id {s : MapState} (w : WF s) {k : GoVal} {e : Nat}
    (hr : alookup s.readM k = none) (hd : alookup (dirtyList s) k = some e) :
    ∀ p ∈ s.readM, p.2 ≠ e := by
  intro p hp hpe
  have hdn : s.dirty ≠ none := dirty_ne_none_of_lookup hd
  have hke : (k, e) ∈ dirtyList s := alookup_mem hd
  have hne : heapGet s.heap p.2 ≠ .expunged := by
    rw [hpe]
    exact w.dirty_live (k, e) hke
  have hsub := w.read_sub_dirty hdn p hp hne
  rw [hpe] at hsub
  have h1 : (p.1, e) ∈ dirtyList s := alookup_mem hsub
  have heqp : (p.1, e) = (k, e) :=
    nodup_map_eq_of_mem w.dirty_ids_nodup h1 hke rfl
  have hp1 : p.1 = k := congrArg Prod.fst heqp
  rw [alookup_eq_none] at hr
  apply hr
  rw [← hp1]
  exact List.mem_map_of_mem Prod.fst hp

/-- Un-expunging a snapshot entry and reinserting the same entry object into
dirty (then storing a value into it) preserves the invariant. -/
theorem wf_unexp_insert {s : MapState} (w : WF s) {k : GoVal} {e : Nat}
    {d : List (GoVal × Nat)} (v : GoVal)
    (hr : alookup s.readM k = some e)
    (hx : heapGet s.heap e = .expunged)
    (hd : s.dirty = some d) :
    WF { s with heap := heapSet (heapSet s.heap e .empty) e (.val v),
                dirty := some (ainsert d k e) } := by
  have hmem : (k, e) ∈ s.readM := alookup_mem hr
  have hdl : dirtyList s = d := dirtyList_eq hd
  have hkd : alookup d k = none := by
    have hh := w.exp_not_in_dirty (k, e) hmem hx
    rwa [hdl] at hh
  have hins : ainsert d k e = d ++ [(k, e)] := ainsert_of_lookup_none e hkd
  have heid : ∀ p ∈ d, p.2 ≠ e := by
    intro p hp hpe
    have hh := w.dirty_live p (by rw [hdl]; exact hp)
    rw [hpe, hx] at hh
    exact hh rfl
  have hget : ∀ x : Nat,
      heapGet (heapSet (heapSet s.heap e .empty) e (.val v)) x =
        if x = e then .val v else heapGet s.heap x := by
    intro x
    by_cases hxe : x = e
    · subst hxe
      simp [heapGet_set_self]
    · simp only [hxe, if_false]
      rw [heapGet_set_ne _ _ _ _ hxe, heapGet_set_ne _ _ _ _ hxe]
  constructor
  · have ha : s.amended = true := w.amended_iff.mpr (by rw [hd]; simp)
    constructor
    · intro _
      simp
    · intro _
      exact ha
  · intro p hp
    have hp2 : p ∈ ainsert d k e := hp
    show heapGet (heapSet (heapSet s.heap e .empty) e (.val v)) p.2 ≠ .expunged
    rw [hget]
    rcases mem_ainsert hp2 with hpe | hpd
    · rw [hpe]
      simp
    · have hne : p.2 ≠ e := heid p hpd
      simp only [hne, if_false]
      exact w.dirty_live p (by rw [hdl]; exact hpd)
  · intro _ p hp hexp
    have hp2 : p ∈ s.readM := hp
    have hexp2 : (if p.2 = e then EState.val v else heapGet s.heap p.2) ≠
        .expunged := by
      have hh : heapGet (heapSet (heapSet s.heap e .empty) e (.val v)) p.2 ≠
          .expunged := hexp
      rwa [hget] at hh
    by_cases hpe : p.2 = e
    · have hpk : p = (k, e) :=
        nodup_map_eq_of_mem w.read_ids_nodup hp2 hmem (by rw [hpe])
      rw [hpk]
      show alookup (ainsert d k e) k = some e
      exact alookup_ainsert_self d k e
    · simp only [hpe, if_false] at hexp2
      have hold := w.read_sub_dirty (by rw [hd]; simp) p hp2 hexp2
      rw [hdl] at hold
      have hp1k : p.1 ≠ k := by
        intro hh
        have hl : alookup s.readM p.1 = some p.2 :=
          mem_alookup w.read_keys_nodup hp2
        rw [hh, hr] at hl
        exact hpe (Option.some.inj hl.symm)
      show alookup (ainsert d k e) p.1 = some p.2
      rw [alookup_ainsert_ne d k p.1 e hp1k]
      exact hold
  · intro hdn
    exact absurd
      (show (some (ainsert d k e) : Option (List (GoVal × Nat))) = none from hdn)
      (by simp)
  · exact w.read_ids_lt
  · intro p hp
    rcases mem_ainsert (show p ∈ ainsert d k e from hp) with hpe | hpd
    · rw [hpe]
      show e < s.nextId
      exact w.read_ids_lt (k, e) hmem
    · exact w.dirty_ids_lt p (by rw [hdl]; exact hpd)
  · exact w.read_keys_nodup
  · show ((ainsert d k e).map Prod.fst).Nodup
    exact keys_nodup_ainsert e (hdl ▸ w.dirty_keys_nodup)
  · exact w.read_ids_nodup
  · show ((ainsert d k e).map Prod.snd).Nodup
    rw [hins, List.map_append, List.nodup_append]
    refine ⟨hdl ▸ w.dirty_ids_nodup, List.nodup_singleton _, ?_⟩
    intro a ha hb
    simp at hb
    subst hb
    rcases List.mem_map.mp ha with ⟨q, hq, hqa⟩
    exact heid q hq hqa
  · intro p hp hexp
    have hp2 : p ∈ s.readM := hp
    have hexp2 : (if p.2 = e then EState.val v else heapGet s.heap p.2) =
        .expunged := by
      have hh : heapGet (heapSet (heapSet s.heap e .empty) e (.val v)) p.2 =
          .expunged := hexp
      rwa [hget] at hh
    by_cases hpe : p.2 = e
    · rw [if_pos hpe] at hexp2
      simp at hexp2
    · rw [if_neg hpe] at hexp2
      have hold := w.exp_not_in_dirty p hp2 hexp2
      rw [hdl] at hold
      have hp1k : p.1 ≠ k := by
        intro hh
        have hl : alookup s.readM p.1 = some p.2 :=
          mem_alookup w.read_keys_nodup hp2
        rw [hh, hr] at hl
        exact hpe (Option.some.inj hl.symm)
      show alookup (ainsert d k e) p.1 = none
      rw [alookup_ainsert_ne d k p.1 e hp1k]
      exact hold

/-- Installing a freshly allocated entry for a genuinely new key preserves
the invariant. -/
theorem wf_insert_new {s : MapState} (w : WF s) {k : GoVal}
    {d : List (GoVal × Nat)} (v : GoVal)
    (hr : alookup s.readM k = none)
    (hd : s.dirty = some d)
    (hkd : alookup d k = none) :
    WF { s with heap := heapSet s.heap s.nextId (.val v),
                dirty := some (ainsert d k s.nextId),
                nextId := s.nextId + 1 } := by
  have hdl : dirtyList s = d := dirtyList_eq hd
  have hins : ainsert d k s.nextId = d ++ [(k, s.nextId)] :=
    ainsert_of_lookup_none _ hkd
  have hfreshr : ∀ p ∈ s.readM, p.2 ≠ s.nextId := by
    intro p hp hpe
    have hlt := w.read_ids_lt p hp
    rw [hpe] at hlt
    exact lt_irrefl _ hlt
  have hfreshd : ∀ p ∈ d, p.2 ≠ s.nextId := by
    intro p hp hpe
    have hlt := w.dirty_ids_lt p (by rw [hdl]; exact hp)
    rw [hpe] at hlt
    exact lt_irrefl _ hlt
  have hget : ∀ x : Nat, heapGet (heapSet s.heap s.nextId (.val v)) x =
      if x = s.nextId then .val v else heapGet s.heap x := by
    intro x
    by_cases hx : x = s.nextId
    · subst hx
      simp [heapGet_set_self]
    · simp [hx, heapGet_set_ne _ _ _ _ hx]
  have hknotr : k ∉ s.readM.map Prod.fst := (alookup_eq_none _ _).mp hr
  constructor
  · have ha : s.amended = true := w.amended_iff.mpr (by rw [hd]; simp)
    constructor
    · intro _; simp
    · intro _; exact ha
  · intro p hp
    show heapGet (heapSet s.heap s.nextId (.val v)) p.2 ≠ .expunged
    rw [hget]
    rcases mem_ainsert (show p ∈ ainsert d k s.nextId from hp) with hpe | hpd
    · rw [hpe]
      simp
    · have hne : p.2 ≠ s.nextId := hfreshd p hpd
      simp only [hne, if_false]
      exact w.dirty_live p (by rw [hdl]; exact hpd)
  · intro _ p hp hexp
    have hp2 : p ∈ s.readM := hp
    have hexp2 : (if p.2 = s.nextId then EState.val v else heapGet s.heap p.2)
        ≠ .expunged := by
      have hh : heapGet (heapSet s.heap s.nextId (.val v)) p.2 ≠ .expunged :=
        hexp
      rwa [hget] at hh
    have hne : p.2 ≠ s.nextId := hfreshr p hp2
    simp only [hne, if_false] at hexp2
    have hold := w.read_sub_dirty (by rw [hd]; simp) p hp2 hexp2
    rw [hdl] at hold
    have hp1k : p.1 ≠ k := by
      intro hh
      exact hknotr (hh ▸ List.mem_map_of_mem Prod.fst hp2)
    show alookup (ainsert d k s.nextId) p.1 = some p.2
    rw [alookup_ainsert_ne d k p.1 s.nextId hp1k]
    exact hold
  · intro hdn
    exact absurd
      (show (some (ainsert d k s.nextId) : Option (List (GoVal × Nat))) = none
        from hdn) (by simp)
  · intro p hp
    exact Nat.lt_succ_of_lt (w.read_ids_lt p hp)
  · intro p hp
    rcases mem_ainsert (show p ∈ ainsert d k s.nextId from hp) with hpe | hpd
    · rw [hpe]
      exact Nat.lt_succ_self _
    · exact Nat.lt_succ_of_lt (w.dirty_ids_lt p (by rw [hdl]; exact hpd))
  · exact w.read_keys_nodup
  · show ((ainsert d k s.nextId).map Prod.fst).Nodup
    exact keys_nodup_ainsert _ (hdl ▸ w.dirty_keys_nodup)
  · exact w.read_ids_nodup
  · show ((ainsert d k s.nextId).map Prod.snd).Nodup
    rw [hins, List.map_append, List.nodup_append]
    refine ⟨hdl ▸ w.dirty_ids_nodup, List.nodup_singleton _, ?_⟩
    intro a ha hb
    simp at hb
    subst hb
    rcases List.mem_map.mp ha with ⟨q, hq, hqa⟩
    exact hfreshd q hq hqa
  · intro p hp hexp
    have hp2 : p ∈ s.readM := hp
    have hexp2 : (if p.2 = s.nextId then EState.val v else heapGet s.heap p.2)
        = .expunged := by
      have hh : heapGet (heapSet s.heap s.nextId (.val v)) p.2 = .expunged :=
        hexp
      rwa [hget] at hh
    have hne : p.2 ≠ s.nextId := hfreshr p hp2
    rw [if_neg hne] at hexp2
    have hold := w.exp_not_in_dirty p hp2 hexp2
    rw [hdl] at hold
    have hp1k : p.1 ≠ k := by
      intro hh
      exact hknotr (hh ▸ List.mem_map_of_mem Prod.fst hp2)
    show alookup (ainsert d k s.nextId) p.1 = none
    rw [alookup_ainsert_ne d k p.1 s.nextId hp1k]
    exact hold

theorem dirtyLocked_none {s : MapState} (hd : s.dirty = none) :
    Map.dirtyLocked s =
      { s with heap := (dirtyScan s.heap s.readM).1,
               dirty := some (dirtyScan s.heap s.readM).2 } := by
  simp [Map.dirtyLocked, hd]

/-- Materializing the dirty map and marking the snapshot amended preserves
the invariant. -/
theorem wf_materialize {s : MapState} (w : WF s) (hd : s.dirty = none) :
    WF { Map.dirtyLocked s with amended := true } := by
  rw [dirtyLocked_none hd]
  have hne : ∀ p ∈ s.readM, heapGet s.heap p.2 ≠ .expunged :=
    w.no_exp_without_dirty hd
  have hsnd : (dirtyScan s.heap s.readM).2 =
      s.readM.filter (fun p => (heapGet s.heap p.2).isVal) :=
    dirtyScan_snd s.heap s.readM
  have hfst : ∀ x : Nat, heapGet (dirtyScan s.heap s.readM).1 x =
      if x ∈ s.readM.map Prod.snd ∧ heapGet s.heap x = .empty
      then .expunged else heapGet s.heap x :=
    dirtyScan_fst s.heap s.readM
  have hdkeys : (((dirtyScan s.heap s.readM).2).map Prod.fst).Nodup := by
    rw [hsnd]
    exact List.Nodup.sublist (List.Sublist.map _ (List.filter_sublist _))
      w.read_keys_nodup
  constructor
  · constructor
    · intro _; simp
    · intro _; rfl
  · intro p hp
    have hp2 : p ∈ (dirtyScan s.heap s.readM).2 := hp
    rw [hsnd] at hp2
    have hval : (heapGet s.heap p.2).isVal = true := (List.mem_filter.mp hp2).2
    have hpr : p ∈ s.readM := (List.mem_filter.mp hp2).1
    show heapGet (dirtyScan s.heap s.readM).1 p.2 ≠ .expunged
    rw [hfst]
    cases hcv : heapGet s.heap p.2 with
    | empty => rw [hcv] at hval; simp [EState.isVal] at hval
    | expunged => exact absurd hcv (hne p hpr)
    | val v0 => simp
  · intro _ p hp hexp
    have hp2 : p ∈ s.readM := hp
    have hexp2 : heapGet (dirtyScan s.heap s.readM).1 p.2 ≠ .expunged := hexp
    rw [hfst] at hexp2
    cases hcv : heapGet s.heap p.2 with
    | empty =>
      exfalso
      apply hexp2
      rw [if_pos (⟨List.mem_map_of_mem Prod.snd hp2, hcv⟩ :
        p.2 ∈ s.readM.map Prod.snd ∧ heapGet s.heap p.2 = .empty)]
    | expunged => exact absurd hcv (hne p hp2)
    | val v0 =>
      have hmem : p ∈ (dirtyScan s.heap s.readM).2 := by
        rw [hsnd]
        refine List.mem_filter.mpr ⟨hp2, ?_⟩
        rw [hcv]
        simp [EState.isVal]
      show alookup (dirtyList { s with
        heap := (dirtyScan s.heap s.readM).1,
        dirty := some (dirtyScan s.heap s.readM).2, amended := true }) p.1
        = some p.2
      have hdl2 : dirtyList { s with
          heap := (dirtyScan s.heap s.readM).1,
          dirty := some (dirtyScan s.heap s.readM).2, amended := true }
          = (dirtyScan s.heap s.readM).2 := by
        simp [dirtyList]
      rw [hdl2]
      exact mem_alookup hdkeys hmem
  · intro hdn
    exact absurd
      (show (some ((dirtyScan s.heap s.readM).2) :
        Option (List (GoVal × Nat))) = none from hdn) (by simp)
  · exact w.read_ids_lt
  · intro p hp
    have hp2 : p ∈ (dirtyScan s.heap s.readM).2 := hp
    rw [hsnd] at hp2
    exact w.read_ids_lt p (List.mem_of_mem_filter hp2)
  · exact w.read_keys_nodup
  · exact hdkeys
  · exact w.read_ids_nodup
  · rw [show dirtyList { s with
        heap := (dirtyScan s.heap s.readM).1,
        dirty := some (dirtyScan s.heap s.readM).2, amended := true }
        = (dirtyScan s.heap s.readM).2 from by simp [dirtyList], hsnd]
    exact List.Nodup.sublist (List.Sublist.map _ (List.filter_sublist _))
      w.read_ids_nodup
  · intro p hp hexp
    have hp2 : p ∈ s.readM := hp
    have hexp2 : heapGet (dirtyScan s.heap s.readM).1 p.2 = .expunged := hexp
    rw [hfst] at hexp2
    cases hcv : heapGet s.heap p.2 with
    | expunged => exact absurd hcv (hne p hp2)
    | val v0 =>
      exfalso
      have hcond : ¬(p.2 ∈ s.readM.map Prod.snd ∧
          heapGet s.heap p.2 = .empty) := by
        intro hc
        rw [hcv] at hc
        simp at hc
      rw [if_neg hcond, hcv] at hexp2
      simp at hexp2
    | empty =>
      show alookup (dirtyList { s with
        heap := (dirtyScan s.heap s.readM).1,
        dirty := some (dirtyScan s.heap s.readM).2, amended := true }) p.1
        = none
      rw [show dirtyList { s with
          heap := (dirtyScan s.heap s.readM).1,
          dirty := some (dirtyScan s.heap s.readM).2, amended := true }
          = (dirtyScan s.heap s.readM).2 from by simp [dirtyList]]
      rw [alookup_eq_none]
      intro hcmem
      rcases List.mem_map.mp hcmem with ⟨q, hq, hq1⟩
      have hq2 : q ∈ s.readM := by
        have := hq
        rw [hsnd] at this
        exact List.mem_of_mem_filter this
      have hqp : q = p :=
        nodup_map_eq_of_mem w.read_keys_nodup hq2 hp2 hq1
      rw [hqp] at hq
      rw [hsnd] at hq
      have hval : (heapGet s.heap p.2).isVal = true := (List.mem_filter.mp hq).2
      rw [hcv] at hval
      simp [EState.isVal] at hval

/-- Clearing a live entry to nil (the delete transition) preserves the
invariant. -/
theorem wf_set_empty {s : MapState} (w : WF s) {e : Nat} {v : GoVal}
    (hv : heapGet s.heap e = .val v) :
    WF { s with heap := heapSet s.heap e .empty } := by
  have hget : ∀ x : Nat, heapGet (heapSet s.heap e .empty) x =
      if x = e then .empty else heapGet s.heap x := by
    intro x
    by_cases hx : x = e
    · subst hx
      simp [heapGet_set_self]
    · simp [hx, heapGet_set_ne _ _ _ _ hx]
  constructor
  · exact w.amended_iff
  · intro p hp
    show heapGet (heapSet s.heap e .empty) p.2 ≠ .expunged
    rw [hget]
    by_cases hx : p.2 = e
    · simp [hx]
    · simp only [hx, if_false]
      exact w.dirty_live p hp
  · intro hd p hp hexp
    have hd2 : s.dirty ≠ none := hd
    have hp2 : p ∈ s.readM := hp
    have hexp2 : (if p.2 = e then EState.empty else heapGet s.heap p.2) ≠
        .expunged := by
      have hh : heapGet (heapSet s.heap e .empty) p.2 ≠ .expunged := hexp
      rwa [hget] at hh
    show alookup (dirtyList s) p.1 = some p.2
    by_cases hx : p.2 = e
    · refine w.read_sub_dirty hd2 p hp2 ?_
      rw [hx, hv]
      simp
    · simp only [hx, if_false] at hexp2
      exact w.read_sub_dirty hd2 p hp2 hexp2
  · intro hd p hp
    show heapGet (heapSet s.heap e .empty) p.2 ≠ .expunged
    rw [hget]
    by_cases hx : p.2 = e
    · simp [hx]
    · simp only [hx, if_false]
      exact w.no_exp_without_dirty hd p hp
  · exact w.read_ids_lt
  · exact w.dirty_ids_lt
  · exact w.read_keys_nodup
  · exact w.dirty_keys_nodup
  · exact w.read_ids_nodup
  · exact w.dirty_ids_nodup
  · intro p hp hexp
    have hexp2 : (if p.2 = e then EState.empty else heapGet s.heap p.2) =
        .expunged := by
      have hh : heapGet (heapSet s.heap e .empty) p.2 = .expunged := hexp
      rwa [hget] at hh
    by_cases hx : p.2 = e
    · rw [if_pos hx] at hexp2
      simp at hexp2
    · rw [if_neg hx] at hexp2
      exact w.exp_not_in_dirty p hp hexp2

/-- Removing a dirty-only key from the dirty map preserves the invariant. -/
theorem wf_erase_dirty_some {s : MapState} (w : WF s) {k : GoVal}
    {d : List (GoVal × Nat)} (hr : alookup s.readM k = none)
    (hd : s.dirty = some d) :
    WF { s with dirty := some (aerase d k) } := by
  have hdl : dirtyList s = d := dirtyList_eq hd
  have hknotr : k ∉ s.readM.map Prod.fst := (alookup_eq_none _ _).mp hr
  constructor
  · constructor
    · intro _
      simp
    · intro _
      exact w.amended_iff.mpr (by rw [hd]; simp)
  · intro p hp
    exact w.dirty_live p (by rw [hdl]; exact (aerase_sublist d k).subset hp)
  · intro _ p hp hexp
    have hold := w.read_sub_dirty (by rw [hd]; simp) p hp hexp
    rw [hdl] at hold
    have hp1k : p.1 ≠ k := fun hh =>
      hknotr (hh ▸ List.mem_map_of_mem Prod.fst hp)
    show alookup (aerase d k) p.1 = some p.2
    rw [alookup_aerase_ne d k p.1 hp1k]
    exact hold
  · intro hdn
    exact absurd
      (show (some (aerase d k) : Option (List (GoVal × Nat))) = none from hdn)
      (by simp)
  · exact w.read_ids_lt
  · intro p hp
    exact w.dirty_ids_lt p (by rw [hdl]; exact (aerase_sublist d k).subset hp)
  · exact w.read_keys_nodup
  · show ((aerase d k).map Prod.fst).Nodup
    exact List.Nodup.sublist (List.Sublist.map _ (aerase_sublist d k))
      (hdl ▸ w.dirty_keys_nodup)
  · exact w.read_ids_nodup
  · show ((aerase d k).map Prod.snd).Nodup
    exact List.Nodup.sublist (List.Sublist.map _ (aerase_sublist d k))
      (hdl ▸ w.dirty_ids_nodup)
  · intro p hp hexp
    have hold := w.exp_not_in_dirty p hp hexp
    rw [hdl] at hold
    have hp1k : p.1 ≠ k := fun hh =>
      hknotr (hh ▸ List.mem_map_of_mem Prod.fst hp)
    show alookup (aerase d k) p.1 = none
    rw [alookup_aerase_ne d k p.1 hp1k]
    exact hold

/-- The zero-value map is well formed. -/
theorem wf_init : WF Map.init := by
  constructor <;> simp [Map.init, dirtyList, alookup]

/-- `Load` preserves the invariant. -/
theorem wf_Load {s : MapState} (w : WF s) (k : GoVal) :
    WF (Map.Load s k).2 := by
  cases hr : alookup s.readM k with
  | some e =>
    rw [show (Map.Load s k).2 = s from by simp [Map.Load, hr]]
    exact w
  | none =>
    cases ha : s.amended with
    | false =>
      rw [show (Map.Load s k).2 = s from by simp [Map.Load, hr, ha]]
      exact w
    | true =>
      cases hdk : alookup (dirtyList s) k with
      | some e =>
        rw [show (Map.Load s k).2 = Map.missLocked s from by
          simp [Map.Load, hr, ha, hdk]]
        exact wf_missLocked w
      | none =>
        rw [show (Map.Load s k).2 = Map.missLocked s from by
          simp [Map.Load, hr, ha, hdk]]
        exact wf_missLocked w

/-- The locked path of `Store` preserves the invariant (and in particular
never panics on a well-formed state). -/
theorem wf_storeSlow {s : MapState} (w : WF s) {k i : GoVal} {s2 : MapState}
    (h : Map.storeSlow s k i = some s2) : WF s2 := by
  rw [Map.storeSlow] at h
  cases hr : alookup s.readM k with
  | some e =>
    rw [hr] at h
    cases hx : heapGet s.heap e with
    | expunged =>
      cases hd : s.dirty with
      | none =>
        exact absurd hx
          ((w.no_exp_without_dirty hd (k, e) (alookup_mem hr)))
      | some d =>
        simp only [entry.unexpungeLocked, hx, hd] at h
        simp at h
        rw [← h]
        exact wf_unexp_insert w i hr hx hd
    | empty =>
      simp only [entry.unexpungeLocked, hx] at h
      simp at h
      rw [← h]
      refine wf_set_val w e i ?_
      intro p hp hpe
      rw [hpe, hx]
      simp
    | val v0 =>
      simp only [entry.unexpungeLocked, hx] at h
      simp at h
      rw [← h]
      refine wf_set_val w e i ?_
      intro p hp hpe
      rw [hpe, hx]
      simp
  | none =>
    rw [hr] at h
    cases hdk : alookup (dirtyList s) k with
    | some e =>
      rw [hdk] at h
      simp at h
      rw [← h]
      refine wf_set_val w e i ?_
      intro p hp hpe
      exact absurd hpe (wf_dirty_only_id w hr hdk p hp)
    | none =>
      rw [hdk] at h
      cases ha : s.amended with
      | true =>
        rw [if_pos ha] at h
        cases hd : s.dirty with
        | none => exact absurd hd (w.amended_iff.mp ha)
        | some d =>
          simp [newEntry, hd] at h
          rw [← h]
          have hkd : alookup d k = none := by
            rw [← dirtyList_eq hd]
            exact hdk
          exact wf_insert_new w i hr hd hkd
      | false =>
        rw [if_neg (by rw [ha]; simp)] at h
        have hdn : s.dirty = none := by
          cases hdc : s.dirty with
          | none => rfl
          | some d =>
            have hamt := w.amended_iff.mpr (by rw [hdc]; simp)
            rw [ha] at hamt
            simp at hamt
        rw [dirtyLocked_none hdn] at h
        simp [newEntry] at h
        rw [← h]
        have hw1 : WF ({ s with
            heap := (dirtyScan s.heap s.readM).1,
            dirty := some (dirtyScan s.heap s.readM).2,
            amended := true }) := by
          have hm := wf_materialize w hdn
          rwa [dirtyLocked_none hdn] at hm
        have hkd2 : alookup (dirtyScan s.heap s.readM).2 k = none := by
          rw [alookup_eq_none, dirtyScan_snd]
          intro hc
          rcases List.mem_map.mp hc with ⟨q, hq, hq1⟩
          have hq2 : q ∈ s.readM := (List.mem_filter.mp hq).1
          rw [alookup_eq_none] at hr
          exact hr (hq1 ▸ List.mem_map_of_mem Prod.fst hq2)
        exact wf_insert_new hw1 i hr rfl hkd2

/-- `Store` preserves the invariant. -/
theorem wf_Store {s : MapState} (w : WF s) {k i : GoVal} {s2 : MapState}
    (h : Map.Store s k i = some s2) : WF s2 := by
  rw [Map.Store] at h
  cases hr : alookup s.readM k with
  | none =>
    rw [hr] at h
    exact wf_storeSlow w h
  | some e =>
    rw [hr] at h
    cases hx : heapGet s.heap e with
    | expunged =>
      simp only [entry.tryStore, hx] at h
      simp at h
      exact wf_storeSlow w h
    | empty =>
      simp only [entry.tryStore, hx] at h
      simp at h
      rw [← h]
      refine wf_set_val w e i ?_
      intro p hp hpe
      rw [hpe, hx]
      simp
    | val v0 =>
      simp only [entry.tryStore, hx] at h
      simp at h
      rw [← h]
      refine wf_set_val w e i ?_
      intro p hp hpe
      rw [hpe, hx]
      simp

/-- The locked path of `LoadOrStore` preserves the invariant. -/
theorem wf_loadOrStoreSlow {s : MapState} (w : WF s) {k i : GoVal}
    {o : (GoVal × Bool) × MapState}
    (h : Map.loadOrStoreSlow s k i = some o) : WF o.2 := by
  rw [Map.loadOrStoreSlow] at h
  cases hr : alookup s.readM k with
  | some e =>
    rw [hr] at h
    cases hx : heapGet s.heap e with
    | expunged =>
      cases hd : s.dirty with
      | none =>
        exact absurd hx (w.no_exp_without_dirty hd (k, e) (alookup_mem hr))
      | some d =>
        have hge : heapGet (heapSet s.heap e .empty) e = .empty :=
          heapGet_set_self s.heap e .empty
        simp only [entry.unexpungeLocked, hx, hd, entry.tryLoadOrStore,
          hge] at h
        simp at h
        rw [← h]
        exact wf_unexp_insert w i hr hx hd
    | empty =>
      simp only [entry.unexpungeLocked, hx, entry.tryLoadOrStore] at h
      simp at h
      rw [← h]
      refine wf_set_val w e i ?_
      intro p hp hpe
      rw [hpe, hx]
      simp
    | val v0 =>
      simp only [entry.unexpungeLocked, hx, entry.tryLoadOrStore] at h
      simp at h
      rw [← h]
      exact w
  | none =>
    rw [hr] at h
    cases hdk : alookup (dirtyList s) k with
    | some e =>
      rw [hdk] at h
      cases hx : heapGet s.heap e with
      | empty =>
        simp only [entry.tryLoadOrStore, hx] at h
        simp at h
        rw [← h]
        refine wf_missLocked (wf_set_val w e i ?_)
        intro p hp hpe
        exact absurd hpe (wf_dirty_only_id w hr hdk p hp)
      | val v0 =>
        simp only [entry.tryLoadOrStore, hx] at h
        simp at h
        rw [← h]
        exact wf_missLocked w
      | expunged =>
        simp only [entry.tryLoadOrStore, hx] at h
        simp at h
        rw [← h]
        exact wf_missLocked w
    | none =>
      rw [hdk] at h
      cases ha : s.amended with
      | true =>
        rw [if_pos ha] at h
        cases hd : s.dirty with
        | none => exact absurd hd (w.amended_iff.mp ha)
        | some d =>
          simp [newEntry, hd] at h
          rw [← h]
          have hkd : alookup d k = none := by
            rw [← dirtyList_eq hd]
            exact hdk
          exact wf_insert_new w i hr hd hkd
      | false =>
        rw [if_neg (by rw [ha]; simp)] at h
        have hdn : s.dirty = none := by
          cases hdc : s.dirty with
          | none => rfl
          | some d =>
            have hamt := w.amended_iff.mpr (by rw [hdc]; simp)
            rw [ha] at hamt
            simp at hamt
        rw [dirtyLocked_none hdn] at h
        simp [newEntry] at h
        rw [← h]
        have hw1 : WF ({ s with
            heap := (dirtyScan s.heap s.readM).1,
            dirty := some (dirtyScan s.heap s.readM).2,
            amended := true }) := by
          have hm := wf_materialize w hdn
          rwa [dirtyLocked_none hdn] at hm
        have hkd2 : alookup (dirtyScan s.heap s.readM).2 k = none := by
          rw [alookup_eq_none, dirtyScan_snd]
          intro hc
          rcases List.mem_map.mp hc with ⟨q, hq, hq1⟩
          have hq2 : q ∈ s.readM := (List.mem_filter.mp hq).1
          rw [alookup_eq_none] at hr
          exact hr (hq1 ▸ List.mem_map_of_mem Prod.fst hq2)
        exact wf_insert_new hw1 i hr rfl hkd2

/-- `LoadOrStore` preserves the invariant. -/
theorem wf_LoadOrStore {s : MapState} (w : WF s) {k i : GoVal}
    {o : (GoVal × Bool) × MapState}
    (h : Map.LoadOrStore s k i = some o) : WF o.2 := by
  rw [Map.LoadOrStore] at h
  cases hr : alookup s.readM k with
  | none =>
    rw [hr] at h
    exact wf_loadOrStoreSlow w h
  | some e =>
    rw [hr] at h
    cases hx : heapGet s.heap e with
    | expunged =>
      simp only [entry.tryLoadOrStore, hx] at h
      simp at h
      exact wf_loadOrStoreSlow w h
    | empty =>
      simp only [entry.tryLoadOrStore, hx] at h
      simp at h
      rw [← h]
      refine wf_set_val w e i ?_
      intro p hp hpe
      rw [hpe, hx]
      simp
    | val v0 =>
      simp only [entry.tryLoadOrStore, hx] at h
      simp at h
      rw [← h]
      exact w

/-- `Delete` preserves the invariant. -/
theorem wf_Delete {s : MapState} (w : WF s) (k : GoVal) :
    WF (Map.Delete s k) := by
  rw [Map.Delete]
  cases hr : alookup s.readM k with
  | some e =>
    show WF { s with heap := (entry.delete s.heap e).2 }
    cases hx : heapGet s.heap e with
    | val v0 =>
      rw [show (entry.delete s.heap e).2 = heapSet s.heap e .empty from by
        simp [entry.delete, hx]]
      exact wf_set_empty w hx
    | empty =>
      rw [show (entry.delete s.heap e).2 = s.heap from by
        simp [entry.delete, hx]]
      exact w
    | expunged =>
      rw [show (entry.delete s.heap e).2 = s.heap from by
        simp [entry.delete, hx]]
      exact w
  | none =>
    cases ha : s.amended with
    | false => exact w
    | true =>
      cases hd : s.dirty with
      | none => exact absurd hd (w.amended_iff.mp ha)
      | some d =>
        have hh := wf_erase_dirty_some w hr hd
        rw [ha] at hh
        exact hh

/-- `Range` preserves the invariant. -/
theorem wf_Range {s : MapState} (w : WF s) (f : GoVal → GoVal → Bool) :
    WF (Map.Range s f).1 := by
  rw [Map.Range]
  cases ha : s.amended with
  | false => exact w
  | true => exact wf_promote w

/-! ### Functional behaviour of the operations -/

/-- After a `missLocked` on a state whose dirty map holds a live value for
`k` (and whose snapshot does not), `Load` still finds that value. -/
theorem load_missLocked_found {s2 : MapState} {k : GoVal} {e : Nat}
    {v : GoVal}
    (hr : alookup s2.readM k = none) (ha : s2.amended = true)
    (hdk : alookup (dirtyList s2) k = some e)
    (hx : heapGet s2.heap e = .val v) :
    (Map.Load (Map.missLocked s2) k).1 = (v, true) := by
  rw [Map.missLocked]
  by_cases hm : s2.misses + 1 < (dirtyList s2).length
  · rw [if_pos hm]
    simp [Map.Load, hr, ha, dirtyList, entry.load, hx,
      show alookup (s2.dirty.getD []) k = some e from hdk]
  · rw [if_neg hm]
    simp [Map.Load, hdk, entry.load, hx]

/-- `Store` then `Load` of the same key finds the stored value; on a
well-formed state `Store` never panics. -/
theorem store_load_spec {s : MapState} (w : WF s) (k v : GoVal) :
    ∃ s2, Map.Store s k v = some s2 ∧ (Map.Load s2 k).1 = (v, true) := by
  cases hr : alookup s.readM k with
  | some e =>
    cases hx : heapGet s.heap e with
    | empty =>
      refine ⟨{ s with heap := heapSet s.heap e (.val v) }, ?_, ?_⟩
      · simp [Map.Store, hr, entry.tryStore, hx]
      · simp [Map.Load, hr, entry.load, heapGet_set_self]
    | val v0 =>
      refine ⟨{ s with heap := heapSet s.heap e (.val v) }, ?_, ?_⟩
      · simp [Map.Store, hr, entry.tryStore, hx]
      · simp [Map.Load, hr, entry.load, heapGet_set_self]
    | expunged =>
      obtain ⟨d, hd⟩ : ∃ d, s.dirty = some d := by
        cases hdc : s.dirty with
        | some d => exact ⟨d, rfl⟩
        | none =>
          exact absurd hx (w.no_exp_without_dirty hdc (k, e) (alookup_mem hr))
      refine ⟨{ s with
          heap := heapSet (heapSet s.heap e .empty) e (.val v),
          dirty := some (ainsert d k e) }, ?_, ?_⟩
      · simp [Map.Store, hr, entry.tryStore, hx, Map.storeSlow,
          entry.unexpungeLocked, hd, entry.storeLocked]
      · simp [Map.Load, hr, entry.load, heapGet_set_self]
  | none =>
    cases hdk : alookup (dirtyList s) k with
    | some e =>
      have ha : s.amended = true :=
        w.amended_iff.mpr (dirty_ne_none_of_lookup hdk)
      refine ⟨{ s with heap := heapSet s.heap e (.val v) }, ?_, ?_⟩
      · simp [Map.Store, hr, Map.storeSlow, hdk, entry.storeLocked]
      · simp [Map.Load, hr, ha, dirtyList,
          show alookup (s.dirty.getD []) k = some e from hdk,
          entry.load, heapGet_set_self]
    | none =>
      cases ha : s.amended with
      | true =>
        obtain ⟨d, hd⟩ : ∃ d, s.dirty = some d := by
          cases hdc : s.dirty with
          | some d => exact ⟨d, rfl⟩
          | none => exact absurd hdc (w.amended_iff.mp ha)
        have hkd : alookup d k = none := by
          rw [← dirtyList_eq hd]
          exact hdk
        refine ⟨{ s with
            heap := heapSet s.heap s.nextId (.val v),
            dirty := some (ainsert d k s.nextId),
            nextId := s.nextId + 1 }, ?_, ?_⟩
        · simp [Map.Store, hr, Map.storeSlow, hdk, ha, hd, newEntry]
        · simp [Map.Load, hr, ha, dirtyList, alookup_ainsert_self,
            entry.load, heapGet_set_self]
      | false =>
        have hdn : s.dirty = none := by
          cases hdc : s.dirty with
          | none => rfl
          | some d =>
            have hamt := w.amended_iff.mpr (by rw [hdc]; simp)
            rw [ha] at hamt
            simp at hamt
        refine ⟨{ s with
            heap := heapSet (dirtyScan s.heap s.readM).1 s.nextId (.val v),
            nextId := s.nextId + 1,
            amended := true,
            dirty := some (ainsert (dirtyScan s.heap s.readM).2 k s.nextId) },
          ?_, ?_⟩
        · simp [Map.Store, hr, Map.storeSlow, hdk, ha, dirtyLocked_none hdn,
            newEntry]
        · simp [Map.Load, hr, dirtyList, alookup_ainsert_self,
            entry.load, heapGet_set_self]

/-- `LoadOrStore` on an absent key installs the given value and reports
`loaded = false`; afterwards the key is found with that value. -/
theorem loadOrStore_fresh {s : MapState} (w : WF s) (k v : GoVal)
    (hnf : (Map.Load s k).1.2 = false) :
    ∃ s1, Map.LoadOrStore s k v = some ((v, false), s1) ∧ WF s1 ∧
      (Map.Load s1 k).1 = (v, true) := by
  cases hr : alookup s.readM k with
  | some e =>
    have hld : (Map.Load s k).1 = entry.load s.heap e := by
      simp [Map.Load, hr]
    rw [hld] at hnf
    cases hx : heapGet s.heap e with
    | val v0 =>
      exfalso
      rw [show entry.load s.heap e = (v0, true) from by
        simp [entry.load, hx]] at hnf
      simp at hnf
    | empty =>
      refine ⟨{ s with heap := heapSet s.heap e (.val v) }, ?_, ?_, ?_⟩
      · simp [Map.LoadOrStore, hr, entry.tryLoadOrStore, hx]
      · refine wf_set_val w e v ?_
        intro p hp hpe
        rw [hpe, hx]
        simp
      · simp [Map.Load, hr, entry.load, heapGet_set_self]
    | expunged =>
      obtain ⟨d, hd⟩ : ∃ d, s.dirty = some d := by
        cases hdc : s.dirty with
        | some d => exact ⟨d, rfl⟩
        | none =>
          exact absurd hx (w.no_exp_without_dirty hdc (k, e) (alookup_mem hr))
      refine ⟨{ s with
          heap := heapSet (heapSet s.heap e .empty) e (.val v),
          dirty := some (ainsert d k e) }, ?_, ?_, ?_⟩
      · simp [Map.LoadOrStore, hr, entry.tryLoadOrStore, hx,
          Map.loadOrStoreSlow, entry.unexpungeLocked, hd, heapGet_set_self]
      · exact wf_unexp_insert w v hr hx hd
      · simp [Map.Load, hr, entry.load, heapGet_set_self]
  | none =>
    cases ha : s.amended with
    | true =>
      cases hdk : alookup (dirtyList s) k with
      | some e =>
        have hld : (Map.Load s k).1 = entry.load s.heap e := by
          simp [Map.Load, hr, ha, dirtyList,
            show alookup (s.dirty.getD []) k = some e from hdk]
        rw [hld] at hnf
        cases hx : heapGet s.heap e with
        | val v0 =>
          exfalso
          rw [show entry.load s.heap e = (v0, true) from by
            simp [entry.load, hx]] at hnf
          simp at hnf
        | expunged =>
          exact absurd hx (w.dirty_live (k, e) (alookup_mem hdk))
        | empty =>
          have hside : ∀ p ∈ s.readM, p.2 = e →
              heapGet s.heap p.2 ≠ .expunged := by
            intro p hp hpe
            exact absurd hpe (wf_dirty_only_id w hr hdk p hp)
          refine ⟨Map.missLocked { s with heap := heapSet s.heap e (.val v) },
            ?_, ?_, ?_⟩
          · simp [Map.LoadOrStore, hr, Map.loadOrStoreSlow,
              dirtyList, show alookup (s.dirty.getD []) k = some e from hdk,
              entry.tryLoadOrStore, hx]
          · exact wf_missLocked (wf_set_val w e v hside)
          · exact @load_missLocked_found
              { s with heap := heapSet s.heap e (.val v) } k e v
              hr ha hdk (heapGet_set_self _ _ _)
      | none =>
        obtain ⟨d, hd⟩ : ∃ d, s.dirty = some d := by
          cases hdc : s.dirty with
          | some d => exact ⟨d, rfl⟩
          | none => exact absurd hdc (w.amended_iff.mp ha)
        have hkd : alookup d k = none := by
          rw [← dirtyList_eq hd]
          exact hdk
        refine ⟨{ s with
            heap := heapSet s.heap s.nextId (.val v),
            dirty := some (ainsert d k s.nextId),
            nextId := s.nextId + 1 }, ?_, ?_, ?_⟩
        · simp [Map.LoadOrStore, hr, Map.loadOrStoreSlow, hdk, ha, hd,
            newEntry]
        · exact wf_insert_new w v hr hd hkd
        · simp [Map.Load, hr, ha, dirtyList, alookup_ainsert_self,
            entry.load, heapGet_set_self]
    | false =>
      have hdn : s.dirty = none := by
        cases hdc : s.dirty with
        | none => rfl
        | some d =>
          have hamt := w.amended_iff.mpr (by rw [hdc]; simp)
          rw [ha] at hamt
          simp at hamt
      have hkd2 : alookup (dirtyScan s.heap s.readM).2 k = none := by
        rw [alookup_eq_none, dirtyScan_snd]
        intro hc
        rcases List.mem_map.mp hc with ⟨q, hq, hq1⟩
        have hq2 : q ∈ s.readM := (List.mem_filter.mp hq).1
        rw [alookup_eq_none] at hr
        exact hr (hq1 ▸ List.mem_map_of_mem Prod.fst hq2)
      have hw1 : WF ({ s with
          heap := (dirtyScan s.heap s.readM).1,
          dirty := some (dirtyScan s.heap s.readM).2,
          amended := true }) := by
        have hm := wf_materialize w hdn
        rwa [dirtyLocked_none hdn] at hm
      refine ⟨{ s with
          heap := heapSet (dirtyScan s.heap s.readM).1 s.nextId (.val v),
          nextId := s.nextId + 1,
          amended := true,
          dirty := some (ainsert (dirtyScan s.heap s.readM).2 k s.nextId) },
        ?_, ?_, ?_⟩
      · have hdk0 : alookup (dirtyList s) k = none := by
          rw [dirtyList, hdn]
          simp [alookup]
        simp [Map.LoadOrStore, hr, Map.loadOrStoreSlow, hdk0, ha,
          dirtyLocked_none hdn, newEntry]
      · exact wf_insert_new hw1 v hr rfl hkd2
      · simp [Map.Load, hr, dirtyList, alookup_ainsert_self,
          entry.load, heapGet_set_self]

/-- `LoadOrStore` on a present key returns the existing value with
`loaded = true` and does not overwrite it. -/
theorem loadOrStore_hit {s : MapState} (k v2 : GoVal) {v0 : GoVal}
    (hf : (Map.Load s k).1 = (v0, true)) :
    ∃ s2, Map.LoadOrStore s k v2 = some ((v0, true), s2) := by
  cases hr : alookup s.readM k with
  | some e =>
    have hld : (Map.Load s k).1 = entry.load s.heap e := by
      simp [Map.Load, hr]
    rw [hld] at hf
    cases hx : heapGet s.heap e with
    | empty =>
      exfalso
      rw [show entry.load s.heap e = (GoVal.vnil, false) from by
        simp [entry.load, hx]] at hf
      simp at hf
    | expunged =>
      exfalso
      rw [show entry.load s.heap e = (GoVal.vnil, false) from by
        simp [entry.load, hx]] at hf
      simp at hf
    | val w0 =>
      have hw0 : w0 = v0 := by
        rw [show entry.load s.heap e = (w0, true) from by
          simp [entry.load, hx]] at hf
        exact (Prod.mk.injEq _ _ _ _ ▸ hf).1
      subst hw0
      refine ⟨s, ?_⟩
      simp [Map.LoadOrStore, hr, entry.tryLoadOrStore, hx]
  | none =>
    cases ha : s.amended with
    | false =>
      exfalso
      rw [show (Map.Load s k).1 = (GoVal.vnil, false) from by
        simp [Map.Load, hr, ha]] at hf
      simp at hf
    | true =>
      cases hdk : alookup (dirtyList s) k with
      | none =>
        exfalso
        rw [show (Map.Load s k).1 = (GoVal.vnil, false) from by
          simp [Map.Load, hr, ha, dirtyList,
            show alookup (s.dirty.getD []) k = none from hdk]] at hf
        simp at hf
      | some e =>
        have hld : (Map.Load s k).1 = entry.load s.heap e := by
          simp [Map.Load, hr, ha, dirtyList,
            show alookup (s.dirty.getD []) k = some e from hdk]
        rw [hld] at hf
        cases hx : heapGet s.heap e with
        | empty =>
          exfalso
          rw [show entry.load s.heap e = (GoVal.vnil, false) from by
            simp [entry.load, hx]] at hf
          simp at hf
        | expunged =>
          exfalso
          rw [show entry.load s.heap e = (GoVal.vnil, false) from by
            simp [entry.load, hx]] at hf
          simp at hf
        | val w0 =>
          have hw0 : w0 = v0 := by
            rw [show entry.load s.heap e = (w0, true) from by
              simp [entry.load, hx]] at hf
            exact (Prod.mk.injEq _ _ _ _ ▸ hf).1
          subst hw0
          refine ⟨Map.missLocked s, ?_⟩
          simp [Map.LoadOrStore, hr, Map.loadOrStoreSlow, dirtyList,
            show alookup (s.dirty.getD []) k = some e from hdk,
            entry.tryLoadOrStore, hx]

/-- After `Delete`, a `Load` of the same key reports not-found (this needs
no invariant at all). -/
theorem load_delete_false (s : MapState) (k : GoVal) :
    (Map.Load (Map.Delete s k) k).1.2 = false := by
  rw [Map.Delete]
  cases hr : alookup s.readM k with
  | some e =>
    cases hx : heapGet s.heap e with
    | val v0 =>
      simp [Map.Load, hr, entry.delete, hx, entry.load, heapGet_set_self]
    | empty =>
      simp [Map.Load, hr, entry.delete, hx, entry.load]
    | expunged =>
      simp [Map.Load, hr, entry.delete, hx, entry.load]
  | none =>
    cases ha : s.amended with
    | false => simp [Map.Load, hr, ha]
    | true =>
      cases hd : s.dirty with
      | none => simp [Map.Load, hr, hd, dirtyList, alookup]
      | some d =>
        simp [Map.Load, hr, hd, dirtyList, alookup_aerase_self]

/-- `Delete` is idempotent as a state transformer. -/
theorem delete_idem (s : MapState) (k : GoVal) :
    Map.Delete (Map.Delete s k) k = Map.Delete s k := by
  cases hr : alookup s.readM k with
  | some e =>
    have h1 : Map.Delete s k = { s with heap := (entry.delete s.heap e).2 } := by
      simp [Map.Delete, hr]
    rw [h1]
    cases hx : heapGet s.heap e with
    | val v0 =>
      have hh : (entry.delete s.heap e).2 = heapSet s.heap e .empty := by
        simp [entry.delete, hx]
      rw [hh]
      have hg : heapGet (heapSet s.heap e .empty) e = EState.empty :=
        heapGet_set_self _ _ _
      simp [Map.Delete, hr, entry.delete, hg]
    | empty =>
      have hh : (entry.delete s.heap e).2 = s.heap := by
        simp [entry.delete, hx]
      rw [hh]
      simp [Map.Delete, hr, entry.delete, hx]
    | expunged =>
      have hh : (entry.delete s.heap e).2 = s.heap := by
        simp [entry.delete, hx]
      rw [hh]
      simp [Map.Delete, hr, entry.delete, hx]
  | none =>
    cases ha : s.amended with
    | false =>
      have h1 : Map.Delete s k = s := by simp [Map.Delete, hr, ha]
      rw [h1]
      exact h1
    | true =>
      cases hd : s.dirty with
      | none =>
        have h1 : Map.Delete s k = { s with dirty := none } := by
          simp [Map.Delete, hr, ha, hd]
        rw [h1]
        simp [Map.Delete, hr, ha]
      | some d =>
        have h1 : Map.Delete s k = { s with dirty := some (aerase d k) } := by
          simp [Map.Delete, hr, ha, hd]
        rw [h1]
        simp [Map.Delete, hr, ha, aerase_idem]

/-- Core properties of the `Range` iteration over a fixed map with
duplicate-free keys. -/
theorem range_core (h : Heap) (f : GoVal → GoVal → Bool)
    (l : List (GoVal × Nat)) (hn : (l.map Prod.fst).Nodup) :
    ((rangeIter h f l).map Prod.fst).Nodup ∧
    (∀ q ∈ rangeIter h f l, ∃ e, (q.1, e) ∈ l ∧ heapGet h e = .val q.2) ∧
    (∀ l1 q l2, rangeIter h f l = l1 ++ q :: l2 → f q.1 q.2 = false →
      l2 = []) ∧
    (∀ p ∈ l, (∀ v, heapGet h p.2 ≠ .val v) →
      ∀ v, (p.1, v) ∉ rangeIter h f l) := by
  refine ⟨List.Nodup.sublist (rangeIter_keys_sublist h f l) hn,
    fun q hq => rangeIter_mem h f l hq, rangeIter_stop h f l, ?_⟩
  intro p hp hdead v hmem
  rcases rangeIter_mem h f l hmem with ⟨e, he1, he2⟩
  have hpe : (p.1, e) = p := nodup_map_eq_of_mem hn he1 hp rfl
  have he3 : e = p.2 := congrArg Prod.snd hpe
  rw [he3] at he2
  exact hdead v he2

/-- C1: for every key `k` and value `v`, on any well-formed (reachable)
state, `Put(k, v)` succeeds and an immediately following `Get(k)` with no
intervening `Delete(k)` returns `(v, true)`. -/
theorem C1_put_then_get (s : MapState) (k v : GoVal) (w : WF s) :
    ∃ s2, Map.Store s k v = some s2 ∧ (Map.Load s2 k).1 = (v, true) :=
  store_load_spec w k v

theorem C1_put_then_get_witness :
    ∃ s2, Map.Store Map.init (GoVal.vint 1) (GoVal.vint 2) = some s2 ∧
      (Map.Load s2 (GoVal.vint 1)).1 = (GoVal.vint 2, true) :=
  C1_put_then_get Map.init (GoVal.vint 1) (GoVal.vint 2) wf_init

/-- C2: a lookup whose key is absent from the snapshot while the snapshot
is amended consults dirty and leaves the map in the `missLocked` state:
under the lock the miss counter is incremented, and as soon as the
incremented counter is no longer below the size of the dirty mapping —
in particular when it reaches it exactly — the snapshot is replaced by
`{ mapping := dirty, amended := false }`, the dirty reference is cleared to
absent and the miss counter is reset to zero. -/
theorem C2_miss_accounting :
    (∀ (s : MapState) (k : GoVal), alookup s.readM k = none →
      s.amended = true → (Map.Load s k).2 = Map.missLocked s) ∧
    (∀ s : MapState, s.misses + 1 < (dirtyList s).length →
      Map.missLocked s = { s with misses := s.misses + 1 }) ∧
    (∀ s : MapState, s.misses + 1 = (dirtyList s).length →
      Map.missLocked s = { s with readM := dirtyList s, amended := false,
                                  dirty := none, misses := 0 }) := by
  refine ⟨?_, ?_, ?_⟩
  · intro s k hr ha
    cases hdk : alookup (dirtyList s) k with
    | some e => simp [Map.Load, hr, ha, hdk]
    | none => simp [Map.Load, hr, ha, hdk]
  · intro s hlt
    simp [Map.missLocked, hlt]
  · intro s heq
    simp [Map.missLocked, heq]

theorem C2_miss_accounting_witness :
    (Map.Load ⟨[], 0, [], true, some [], 0⟩ (GoVal.vint 5)).2 =
      Map.missLocked ⟨[], 0, [], true, some [], 0⟩ ∧
    Map.missLocked
        ⟨[], 2, [], true, some [(GoVal.vint 1, 0), (GoVal.vint 2, 1)], 0⟩ =
      ⟨[], 2, [], true, some [(GoVal.vint 1, 0), (GoVal.vint 2, 1)], 1⟩ ∧
    Map.missLocked ⟨[], 1, [], true, some [(GoVal.vint 1, 0)], 0⟩ =
      ⟨[], 1, [(GoVal.vint 1, 0)], false, none, 0⟩ :=
  ⟨C2_miss_accounting.1 ⟨[], 0, [], true, some [], 0⟩ (GoVal.vint 5)
      (by decide) rfl,
   C2_miss_accounting.2.1
      ⟨[], 2, [], true, some [(GoVal.vint 1, 0), (GoVal.vint 2, 1)], 0⟩
      (by decide),
   C2_miss_accounting.2.2 ⟨[], 1, [], true, some [(GoVal.vint 1, 0)], 0⟩
      (by decide)⟩

/-- C5: `GetOrPut(k, v1)` on a key the map does not hold returns
`(v1, false)` (the given value is the one installed), and a subsequent
`GetOrPut(k, v2)` returns `(v1, true)` (a pre-existing value is returned
unchanged — the original wins). -/
theorem C5_get_or_put (s : MapState) (k v1 v2 : GoVal) (w : WF s)
    (hfresh : (Map.Load s k).1.2 = false) :
    ∃ s1 s2, Map.LoadOrStore s k v1 = some ((v1, false), s1) ∧
      Map.LoadOrStore s1 k v2 = some ((v1, true), s2) := by
  obtain ⟨s1, h1, w1, hfind⟩ := loadOrStore_fresh w k v1 hfresh
  obtain ⟨s2, h2⟩ := loadOrStore_hit k v2 hfind
  exact ⟨s1, s2, h1, h2⟩

theorem C5_get_or_put_witness :
    ∃ s1 s2,
      Map.LoadOrStore Map.init (GoVal.vint 1) (GoVal.vint 7) =
        some ((GoVal.vint 7, false), s1) ∧
      Map.LoadOrStore s1 (GoVal.vint 1) (GoVal.vint 9) =
        some ((GoVal.vint 7, true), s2) :=
  C5_get_or_put Map.init (GoVal.vint 1) (GoVal.vint 7) (GoVal.vint 9)
    wf_init (by decide)

/-- C6: `Delete(k)` is idempotent: deleting twice gives the same state as
deleting once, and a `Get(k)` after the first delete and after the second
(performed on the state the first `Get` left behind) both report
`found = false`. -/
theorem C6_delete_idempotent (s : MapState) (k : GoVal) :
    Map.Delete (Map.Delete s k) k = Map.Delete s k ∧
    (Map.Load (Map.Delete s k) k).1.2 = false ∧
    (Map.Load (Map.Delete ((Map.Load (Map.Delete s k) k).2) k) k).1.2 =
      false :=
  ⟨delete_idem s k, load_delete_false s k,
    load_delete_false ((Map.Load (Map.Delete s k) k).2) k⟩

/-- C9: deleting a key present in the snapshot changes no key set: the
snapshot mapping, the dirty mapping, the amended flag, the miss counter and
the allocation counter are all untouched (no lock is taken); the only
effect is to reset the key's entry cell to nil, and only when it held a
value. -/
theorem C9_delete_frame (s : MapState) (k : GoVal) (e : Nat)
    (hr : alookup s.readM k = some e) :
    (Map.Delete s k).readM = s.readM ∧
    (Map.Delete s k).dirty = s.dirty ∧
    (Map.Delete s k).amended = s.amended ∧
    (Map.Delete s k).misses = s.misses ∧
    (Map.Delete s k).nextId = s.nextId ∧
    ((∀ v, heapGet s.heap e ≠ .val v) → Map.Delete s k = s) ∧
    (∀ v, heapGet s.heap e = .val v →
      Map.Delete s k = { s with heap := heapSet s.heap e .empty }) := by
  have hD : Map.Delete s k = { s with heap := (entry.delete s.heap e).2 } := by
    simp [Map.Delete, hr]
  rw [hD]
  refine ⟨rfl, rfl, rfl, rfl, rfl, ?_, ?_⟩
  · intro hdead
    cases hx : heapGet s.heap e with
    | val v0 => exact absurd hx (hdead v0)
    | empty => simp [entry.delete, hx]
    | expunged => simp [entry.delete, hx]
  · intro v hx
    simp [entry.delete, hx]

theorem C9_delete_frame_witness :
    (Map.Delete ⟨[(0, EState.val (GoVal.vint 5))], 1, [(GoVal.vint 1, 0)],
        false, none, 0⟩ (GoVal.vint 1)).readM = [(GoVal.vint 1, 0)] ∧
    (Map.Delete ⟨[(0, EState.val (GoVal.vint 5))], 1, [(GoVal.vint 1, 0)],
        false, none, 0⟩ (GoVal.vint 1)).dirty = none ∧
    (Map.Delete ⟨[(0, EState.val (GoVal.vint 5))], 1, [(GoVal.vint 1, 0)],
        false, none, 0⟩ (GoVal.vint 1)).amended = false ∧
    (Map.Delete ⟨[(0, EState.val (GoVal.vint 5))], 1, [(GoVal.vint 1, 0)],
        false, none, 0⟩ (GoVal.vint 1)).misses = 0 ∧
    (Map.Delete ⟨[(0, EState.val (GoVal.vint 5))], 1, [(GoVal.vint 1, 0)],
        false, none, 0⟩ (GoVal.vint 1)).nextId = 1 ∧
    ((∀ v, heapGet [(0, EState.val (GoVal.vint 5))] 0 ≠ .val v) →
      Map.Delete ⟨[(0, EState.val (GoVal.vint 5))], 1, [(GoVal.vint 1, 0)],
        false, none, 0⟩ (GoVal.vint 1) =
      ⟨[(0, EState.val (GoVal.vint 5))], 1, [(GoVal.vint 1, 0)],
        false, none, 0⟩) ∧
    (∀ v, heapGet [(0, EState.val (GoVal.vint 5))] 0 = .val v →
      Map.Delete ⟨[(0, EState.val (GoVal.vint 5))], 1, [(GoVal.vint 1, 0)],
        false, none, 0⟩ (GoVal.vint 1) =
      ⟨heapSet [(0, EState.val (GoVal.vint 5))] 0 .empty, 1,
        [(GoVal.vint 1, 0)], false, none, 0⟩) :=
  C9_delete_frame
    ⟨[(0, EState.val (GoVal.vint 5))], 1, [(GoVal.vint 1, 0)], false,
      none, 0⟩ (GoVal.vint 1) 0 (by decide)

/-- C10: storing the nil interface value is distinct from absence: after
`Put(k, nil)` a `Get(k)` returns `(nil, true)` — found is true even though
the stored value is nil, because the entry holds a pointer to a nil-valued
interface rather than a nil pointer. -/
theorem C10_nil_value (s : MapState) (k : GoVal) (w : WF s) :
    ∃ s2, Map.Store s k GoVal.vnil = some s2 ∧
      (Map.Load s2 k).1 = (GoVal.vnil, true) :=
  store_load_spec w k GoVal.vnil

theorem C10_nil_value_witness :
    ∃ s2, Map.Store Map.init (GoVal.vint 3) GoVal.vnil = some s2 ∧
      (Map.Load s2 (GoVal.vint 3)).1 = (GoVal.vnil, true) :=
  C10_nil_value Map.init (GoVal.vint 3) wf_init

/-- C3 counterexample: on a state whose snapshot holds an already-tombstoned
entry and whose dirty map is absent, dirty materialization OMITS the
tombstoned entry from the new dirty mapping: `tryExpungeLocked` reports an
already-expunged entry as expunged, so `dirtyLocked` does not insert it —
contradicting the claim that such an entry is inserted by reference. -/
theorem C3_counterexample :
    heapGet [(0, EState.expunged)] 0 = EState.expunged ∧
    (Map.dirtyLocked ⟨[(0, EState.expunged)], 1, [(GoVal.vint 1, 0)], false,
      none, 0⟩).dirty = some [] ∧
    alookup (dirtyList (Map.dirtyLocked ⟨[(0, EState.expunged)], 1,
      [(GoVal.vint 1, 0)], false, none, 0⟩)) (GoVal.vint 1) = none := by
  decide

/-- C3 (amended): dirty materialization, run only when dirty is absent,
visits every (key, entry) pair of the snapshot and attempts the
Empty-to-Tombstone transition; a key whose entry ends up tombstoned —
whether the transition succeeded on a nil entry or the entry was already
tombstoned and stays tombstoned — is omitted from the new dirty mapping;
only a key whose entry holds a live value has the same entry object
inserted into the new dirty mapping by reference (same id). -/
theorem C3_dirty_materialization (s : MapState) (hd : s.dirty = none)
    (hn : (s.readM.map Prod.fst).Nodup) :
    ∃ d, (Map.dirtyLocked s).dirty = some d ∧
      (Map.dirtyLocked s).readM = s.readM ∧
      ∀ p ∈ s.readM,
        (heapGet s.heap p.2 = .empty →
          heapGet (Map.dirtyLocked s).heap p.2 = .expunged ∧
          alookup d p.1 = none) ∧
        (∀ v, heapGet s.heap p.2 = .val v →
          heapGet (Map.dirtyLocked s).heap p.2 = .val v ∧
          alookup d p.1 = some p.2) ∧
        (heapGet s.heap p.2 = .expunged →
          heapGet (Map.dirtyLocked s).heap p.2 = .expunged ∧
          alookup d p.1 = none) := by
  rw [dirtyLocked_none hd]
  refine ⟨(dirtyScan s.heap s.readM).2, rfl, rfl, ?_⟩
  intro p hp
  have hfst := dirtyScan_fst s.heap s.readM p.2
  have hsnd := dirtyScan_snd s.heap s.readM
  have hnone_of_dead : (heapGet s.heap p.2).isVal = false →
      alookup (dirtyScan s.heap s.readM).2 p.1 = none := by
    intro hdead
    rw [alookup_eq_none]
    intro hc
    rcases List.mem_map.mp hc with ⟨q, hq, hq1⟩
    have hq2 : q ∈ s.readM := by
      rw [hsnd] at hq
      exact (List.mem_filter.mp hq).1
    have hqp : q = p := nodup_map_eq_of_mem hn hq2 hp hq1
    rw [hqp, hsnd] at hq
    have hval : (heapGet s.heap p.2).isVal = true := (List.mem_filter.mp hq).2
    rw [hdead] at hval
    simp at hval
  refine ⟨?_, ?_, ?_⟩
  · intro hx
    refine ⟨?_, ?_⟩
    · show heapGet (dirtyScan s.heap s.readM).1 p.2 = .expunged
      rw [hfst, if_pos ⟨List.mem_map_of_mem Prod.snd hp, hx⟩]
    · refine hnone_of_dead ?_
      rw [hx]
      rfl
  · intro v hx
    refine ⟨?_, ?_⟩
    · show heapGet (dirtyScan s.heap s.readM).1 p.2 = .val v
      rw [hfst, if_neg ?_, hx]
      intro hc
      rw [hx] at hc
      exact absurd hc.2 (by simp)
    · have hdkeys : (((dirtyScan s.heap s.readM).2).map Prod.fst).Nodup := by
        rw [hsnd]
        exact List.Nodup.sublist (List.Sublist.map _ (List.filter_sublist _))
          hn
      have hmem : p ∈ (dirtyScan s.heap s.readM).2 := by
        rw [hsnd]
        refine List.mem_filter.mpr ⟨hp, ?_⟩
        show (heapGet s.heap p.2).isVal = true
        rw [hx]
        rfl
      have hmem2 : (p.1, p.2) ∈ (dirtyScan s.heap s.readM).2 := by
        rw [Prod.mk.eta]
        exact hmem
      exact mem_alookup hdkeys hmem2
  · intro hx
    refine ⟨?_, ?_⟩
    · show heapGet (dirtyScan s.heap s.readM).1 p.2 = .expunged
      rw [hfst, if_neg ?_, hx]
      intro hc
      rw [hx] at hc
      exact absurd hc.2 (by simp)
    · refine hnone_of_dead ?_
      rw [hx]
      rfl

theorem C3_dirty_materialization_witness :
    ∃ d, (Map.dirtyLocked ⟨[(0, EState.empty), (1, EState.val (GoVal.vint 7))],
        2, [(GoVal.vint 1, 0), (GoVal.vint 2, 1)], false, none, 0⟩).dirty
        = some d ∧
      (Map.dirtyLocked ⟨[(0, EState.empty), (1, EState.val (GoVal.vint 7))],
        2, [(GoVal.vint 1, 0), (GoVal.vint 2, 1)], false, none, 0⟩).readM
        = [(GoVal.vint 1, 0), (GoVal.vint 2, 1)] ∧
      ∀ p ∈ [(GoVal.vint 1, 0), (GoVal.vint 2, 1)],
        (heapGet [(0, EState.empty), (1, EState.val (GoVal.vint 7))] p.2 =
            .empty →
          heapGet (Map.dirtyLocked ⟨[(0, EState.empty),
            (1, EState.val (GoVal.vint 7))], 2,
            [(GoVal.vint 1, 0), (GoVal.vint 2, 1)], false, none, 0⟩).heap p.2
            = .expunged ∧
          alookup d p.1 = none) ∧
        (∀ v, heapGet [(0, EState.empty), (1, EState.val (GoVal.vint 7))] p.2
            = .val v →
          heapGet (Map.dirtyLocked ⟨[(0, EState.empty),
            (1, EState.val (GoVal.vint 7))], 2,
            [(GoVal.vint 1, 0), (GoVal.vint 2, 1)], false, none, 0⟩).heap p.2
            = .val v ∧
          alookup d p.1 = some p.2) ∧
        (heapGet [(0, EState.empty), (1, EState.val (GoVal.vint 7))] p.2 =
            .expunged →
          heapGet (Map.dirtyLocked ⟨[(0, EState.empty),
            (1, EState.val (GoVal.vint 7))], 2,
            [(GoVal.vint 1, 0), (GoVal.vint 2, 1)], false, none, 0⟩).heap p.2
            = .expunged ∧
          alookup d p.1 = none) :=
  C3_dirty_materialization
    ⟨[(0, EState.empty), (1, EState.val (GoVal.vint 7))], 2,
      [(GoVal.vint 1, 0), (GoVal.vint 2, 1)], false, none, 0⟩
    rfl (by decide)

/-- C4 counterexample: a tombstoned snapshot entry regrows a value through
`Store` with NO new entry allocation: the allocation counter stays at 1 and
the dirty mapping holds the ORIGINAL entry object (id 0) for the key, while
a following `Get` finds the new value — contradicting the claim that a new
Entry object must be allocated for a tombstoned key to hold a value
again. -/
theorem C4_counterexample :
    heapGet [(0, EState.expunged)] 0 = EState.expunged ∧
    Map.Store ⟨[(0, EState.expunged)], 1, [(GoVal.vint 1, 0)], true,
        some [], 0⟩ (GoVal.vint 1) (GoVal.vint 7) =
      some ⟨[(0, EState.val (GoVal.vint 7))], 1, [(GoVal.vint 1, 0)], true,
        some [(GoVal.vint 1, 0)], 0⟩ ∧
    (Map.Load ⟨[(0, EState.val (GoVal.vint 7))], 1, [(GoVal.vint 1, 0)],
        true, some [(GoVal.vint 1, 0)], 0⟩ (GoVal.vint 1)).1 =
      (GoVal.vint 7, true) := by
  decide

/-- C4 (amended): no single entry-level transition takes a tombstoned entry
to a value: on a tombstoned entry the lock-free store, load-or-store and
delete primitives fail and leave it unchanged, re-expunging keeps it
tombstoned, and un-expunging yields Empty, not a value.  Regrowing a
tombstoned snapshot key through `Store` un-expunges and reinstalls the SAME
entry object into dirty under the lock and then stores into it; no new
entry object is allocated (the allocation counter is untouched and the
dirty mapping maps the key to the original entry id). -/
theorem C4_tombstone_protocol :
    (∀ (h : Heap) (e : Nat) (i : GoVal), heapGet h e = .expunged →
      entry.tryStore h e i = (false, h) ∧
      entry.tryLoadOrStore h e i = ((GoVal.vnil, false, false), h) ∧
      entry.delete h e = (false, h) ∧
      entry.tryExpungeLocked h e = (true, h) ∧
      entry.unexpungeLocked h e = (true, heapSet h e .empty)) ∧
    (∀ (s : MapState) (k v : GoVal) (e : Nat) (d : List (GoVal × Nat)),
      alookup s.readM k = some e → heapGet s.heap e = .expunged →
      s.dirty = some d →
      Map.Store s k v = some { s with
        heap := heapSet (heapSet s.heap e .empty) e (.val v),
        dirty := some (ainsert d k e) }) := by
  refine ⟨?_, ?_⟩
  · intro h e i hx
    refine ⟨?_, ?_, ?_, ?_, ?_⟩ <;>
      simp [entry.tryStore, entry.tryLoadOrStore, entry.delete,
        entry.tryExpungeLocked, entry.unexpungeLocked, hx]
  · intro s k v e d hr hx hd
    simp [Map.Store, hr, entry.tryStore, hx, Map.storeSlow,
      entry.unexpungeLocked, hd, entry.storeLocked]

theorem C4_tombstone_protocol_witness :
    (entry.tryStore [(0, EState.expunged)] 0 (GoVal.vint 7) =
        (false, [(0, EState.expunged)]) ∧
      entry.tryLoadOrStore [(0, EState.expunged)] 0 (GoVal.vint 7) =
        ((GoVal.vnil, false, false), [(0, EState.expunged)]) ∧
      entry.delete [(0, EState.expunged)] 0 = (false, [(0, EState.expunged)]) ∧
      entry.tryExpungeLocked [(0, EState.expunged)] 0 =
        (true, [(0, EState.expunged)]) ∧
      entry.unexpungeLocked [(0, EState.expunged)] 0 =
        (true, heapSet [(0, EState.expunged)] 0 .empty)) ∧
    Map.Store ⟨[(0, EState.expunged)], 1, [(GoVal.vint 1, 0)], true,
        some [], 0⟩ (GoVal.vint 1) (GoVal.vint 7) =
      some ⟨heapSet (heapSet [(0, EState.expunged)] 0 .empty) 0
          (.val (GoVal.vint 7)), 1, [(GoVal.vint 1, 0)], true,
        some (ainsert [] (GoVal.vint 1) 0), 0⟩ :=
  ⟨C4_tombstone_protocol.1 [(0, EState.expunged)] 0 (GoVal.vint 7) rfl,
   C4_tombstone_protocol.2
     ⟨[(0, EState.expunged)], 1, [(GoVal.vint 1, 0)], true, some [], 0⟩
     (GoVal.vint 1) (GoVal.vint 7) 0 [] (by decide) rfl rfl⟩

/-- C7: when the snapshot is amended, `Range` first promotes the dirty map
into the snapshot unconditionally — regardless of the miss count — with
`amended = false` and the miss counter reset (otherwise the state is left
unchanged); it then iterates that snapshot, invoking the visitor at most
once per key, only on keys whose entry holds a live value (keys with Empty
or Tombstone entries are skipped), and stopping as soon as the visitor
returns false. -/
theorem C7_range_semantics (s : MapState) (f : GoVal → GoVal → Bool)
    (hrk : (s.readM.map Prod.fst).Nodup)
    (hdk : ((dirtyList s).map Prod.fst).Nodup) :
    (s.amended = true →
      (Map.Range s f).1 = { s with readM := dirtyList s, amended := false,
                                   dirty := none, misses := 0 }) ∧
    (s.amended = false → (Map.Range s f).1 = s) ∧
    (((Map.Range s f).2).map Prod.fst).Nodup ∧
    (∀ q ∈ (Map.Range s f).2, ∃ e, (q.1, e) ∈ (Map.Range s f).1.readM ∧
      heapGet (Map.Range s f).1.heap e = .val q.2) ∧
    (∀ l1 (q : GoVal × GoVal) l2, (Map.Range s f).2 = l1 ++ q :: l2 →
      f q.1 q.2 = false → l2 = []) ∧
    (∀ p ∈ (Map.Range s f).1.readM,
      (∀ v, heapGet (Map.Range s f).1.heap p.2 ≠ .val v) →
      ∀ v, (p.1, v) ∉ (Map.Range s f).2) := by
  cases ha : s.amended with
  | true =>
    have hR : Map.Range s f =
        ({ s with readM := dirtyList s, amended := false, dirty := none,
                  misses := 0 }, rangeIter s.heap f (dirtyList s)) := by
      simp [Map.Range, ha]
    obtain ⟨c1, c2, c3, c4⟩ := range_core s.heap f (dirtyList s) hdk
    rw [hR]
    refine ⟨fun _ => rfl, ?_, c1, c2, c3, c4⟩
    intro hc
    simp at hc
  | false =>
    have hR : Map.Range s f = (s, rangeIter s.heap f s.readM) := by
      simp [Map.Range, ha]
    obtain ⟨c1, c2, c3, c4⟩ := range_core s.heap f s.readM hrk
    rw [hR]
    refine ⟨?_, fun _ => rfl, c1, c2, c3, c4⟩
    intro hc
    simp at hc

theorem C7_range_semantics_witness :
    ((⟨[(0, EState.val (GoVal.vint 10)), (1, EState.val (GoVal.vint 20))],
        2, [(GoVal.vint 1, 0)], true,
        some [(GoVal.vint 1, 0), (GoVal.vint 2, 1)], 3⟩ : MapState).amended
        = true →
      (Map.Range ⟨[(0, EState.val (GoVal.vint 10)),
          (1, EState.val (GoVal.vint 20))], 2, [(GoVal.vint 1, 0)], true,
          some [(GoVal.vint 1, 0), (GoVal.vint 2, 1)], 3⟩
          (fun _ _ => true)).1 =
        { (⟨[(0, EState.val (GoVal.vint 10)),
            (1, EState.val (GoVal.vint 20))], 2, [(GoVal.vint 1, 0)], true,
            some [(GoVal.vint 1, 0), (GoVal.vint 2, 1)], 3⟩ : MapState) with
          readM := dirtyList ⟨[(0, EState.val (GoVal.vint 10)),
            (1, EState.val (GoVal.vint 20))], 2, [(GoVal.vint 1, 0)], true,
            some [(GoVal.vint 1, 0), (GoVal.vint 2, 1)], 3⟩,
          amended := false, dirty := none, misses := 0 }) ∧
    ((⟨[(0, EState.val (GoVal.vint 10)), (1, EState.val (GoVal.vint 20))],
        2, [(GoVal.vint 1, 0)], true,
        some [(GoVal.vint 1, 0), (GoVal.vint 2, 1)], 3⟩ : MapState).amended
        = false →
      (Map.Range ⟨[(0, EState.val (GoVal.vint 10)),
          (1, EState.val (GoVal.vint 20))], 2, [(GoVal.vint 1, 0)], true,
          some [(GoVal.vint 1, 0), (GoVal.vint 2, 1)], 3⟩
          (fun _ _ => true)).1 =
        ⟨[(0, EState.val (GoVal.vint 10)), (1, EState.val (GoVal.vint 20))],
          2, [(GoVal.vint 1, 0)], true,
          some [(GoVal.vint 1, 0), (GoVal.vint 2, 1)], 3⟩) ∧
    (((Map.Range ⟨[(0, EState.val (GoVal.vint 10)),
        (1, EState.val (GoVal.vint 20))], 2, [(GoVal.vint 1, 0)], true,
        some [(GoVal.vint 1, 0), (GoVal.vint 2, 1)], 3⟩
        (fun _ _ => true)).2).map Prod.fst).Nodup ∧
    (∀ q ∈ (Map.Range ⟨[(0, EState.val (GoVal.vint 10)),
        (1, EState.val (GoVal.vint 20))], 2, [(GoVal.vint 1, 0)], true,
        some [(GoVal.vint 1, 0), (GoVal.vint 2, 1)], 3⟩
        (fun _ _ => true)).2, ∃ e,
      (q.1, e) ∈ (Map.Range ⟨[(0, EState.val (GoVal.vint 10)),
        (1, EState.val (GoVal.vint 20))], 2, [(GoVal.vint 1, 0)], true,
        some [(GoVal.vint 1, 0), (GoVal.vint 2, 1)], 3⟩
        (fun _ _ => true)).1.readM ∧
      heapGet (Map.Range ⟨[(0, EState.val (GoVal.vint 10)),
        (1, EState.val (GoVal.vint 20))], 2, [(GoVal.vint 1, 0)], true,
        some [(GoVal.vint 1, 0), (GoVal.vint 2, 1)], 3⟩
        (fun _ _ => true)).1.heap e = .val q.2) ∧
    (∀ l1 (q : GoVal × GoVal) l2,
      (Map.Range ⟨[(0, EState.val (GoVal.vint 10)),
        (1, EState.val (GoVal.vint 20))], 2, [(GoVal.vint 1, 0)], true,
        some [(GoVal.vint 1, 0), (GoVal.vint 2, 1)], 3⟩
        (fun _ _ => true)).2 = l1 ++ q :: l2 →
      (fun _ _ => true : GoVal → GoVal → Bool) q.1 q.2 = false → l2 = []) ∧
    (∀ p ∈ (Map.Range ⟨[(0, EState.val (GoVal.vint 10)),
        (1, EState.val (GoVal.vint 20))], 2, [(GoVal.vint 1, 0)], true,
        some [(GoVal.vint 1, 0), (GoVal.vint 2, 1)], 3⟩
        (fun _ _ => true)).1.readM,
      (∀ v, heapGet (Map.Range ⟨[(0, EState.val (GoVal.vint 10)),
        (1, EState.val (GoVal.vint 20))], 2, [(GoVal.vint 1, 0)], true,
        some [(GoVal.vint 1, 0), (GoVal.vint 2, 1)], 3⟩
        (fun _ _ => true)).1.heap p.2 ≠ .val v) →
      ∀ v, (p.1, v) ∉ (Map.Range ⟨[(0, EState.val (GoVal.vint 10)),
        (1, EState.val (GoVal.vint 20))], 2, [(GoVal.vint 1, 0)], true,
        some [(GoVal.vint 1, 0), (GoVal.vint 2, 1)], 3⟩
        (fun _ _ => true)).2) :=
  C7_range_semantics
    ⟨[(0, EState.val (GoVal.vint 10)), (1, EState.val (GoVal.vint 20))], 2,
      [(GoVal.vint 1, 0)], true,
      some [(GoVal.vint 1, 0), (GoVal.vint 2, 1)], 3⟩
    (fun _ _ => true) (by decide) (by decide)

/-- C8: the state invariant — in particular, whenever the published
snapshot has `amended = true` the dirty mapping is non-nil, and every
promotion that clears dirty to nil simultaneously installs a snapshot with
`amended = false` — holds in the zero-value map and is preserved by every
operation, so a miss can never promote an absent dirty mapping. -/
theorem C8_invariant :
    WF Map.init ∧
    (∀ (s : MapState) (k : GoVal), WF s → WF (Map.Load s k).2) ∧
    (∀ (s : MapState) (k v : GoVal) (s2 : MapState), WF s →
      Map.Store s k v = some s2 → WF s2) ∧
    (∀ (s : MapState) (k v : GoVal) (o : (GoVal × Bool) × MapState), WF s →
      Map.LoadOrStore s k v = some o → WF o.2) ∧
    (∀ (s : MapState) (k : GoVal), WF s → WF (Map.Delete s k)) ∧
    (∀ (s : MapState) (f : GoVal → GoVal → Bool), WF s →
      WF (Map.Range s f).1) ∧
    (∀ s : MapState, WF s → s.amended = true → s.dirty ≠ none) :=
  ⟨wf_init,
   fun _ k w => wf_Load w k,
   fun _ _ _ _ w h => wf_Store w h,
   fun _ _ _ _ w h => wf_LoadOrStore w h,
   fun _ k w => wf_Delete w k,
   fun _ f w => wf_Range w f,
   fun _ w => w.amended_iff.mp⟩

theorem C8_invariant_witness :
    WF Map.init ∧
    WF (Map.Load Map.init (GoVal.vint 1)).2 ∧
    WF (⟨[(0, EState.val (GoVal.vint 2))], 1, [], true,
      some [(GoVal.vint 1, 0)], 0⟩ : MapState) ∧
    WF ((((GoVal.vint 2, false),
      (⟨[(0, EState.val (GoVal.vint 2))], 1, [], true,
        some [(GoVal.vint 1, 0)], 0⟩ : MapState)) :
      (GoVal × Bool) × MapState).2) ∧
    WF (Map.Delete Map.init (GoVal.vint 1)) ∧
    WF (Map.Range Map.init (fun _ _ => true)).1 ∧
    (Map.init.amended = true → Map.init.dirty ≠ none) :=
  ⟨C8_invariant.1,
   C8_invariant.2.1 Map.init (GoVal.vint 1) C8_invariant.1,
   C8_invariant.2.2.1 Map.init (GoVal.vint 1) (GoVal.vint 2)
     ⟨[(0, EState.val (GoVal.vint 2))], 1, [], true,
       some [(GoVal.vint 1, 0)], 0⟩ C8_invariant.1 (by decide),
   C8_invariant.2.2.2.1 Map.init (GoVal.vint 1) (GoVal.vint 2)
     ((GoVal.vint 2, false),
       ⟨[(0, EState.val (GoVal.vint 2))], 1, [], true,
         some [(GoVal.vint 1, 0)], 0⟩) C8_invariant.1 (by decide),
   C8_invariant.2.2.2.2.1 Map.init (GoVal.vint 1) C8_invariant.1,
   C8_invariant.2.2.2.2.2.1 Map.init (fun _ _ => true) C8_invariant.1,
   C8_invariant.2.2.2.2.2.2 Map.init C8_invariant.1⟩
